import Mathlib

/-!
# Terminal core of `main/main.c`

A shallow embedding of the scrollback ring (`init`, `add_line`, the part of `blit` that
reads the ring), the one-line editor kept in `input_buffer`, the LED packing and one
iteration of the `while (1)` loop of `app_main`, followed by a head-index circular buffer
that the ring is compared with.

Conventions.
* A `char` / `uint8_t` is a `Nat` (its byte value); a C array is a `List` of its elements.
  `'\0'` is 0, `'\b'` is 8, `'\n'` is 10, `'\r'` is 13 and `' '` is 32.
* `int line_index[..]` holds only values `0 .. num_lines - 1` (zero-initialised global,
  written by `init` and `add_line` only), so its elements are `Nat` and `%` is `Nat` remainder.
* The macros `num_lines` and `num_chars` are arguments `L` and `C` of the ring operations;
  the program is the instance `L = num_lines = 17`, `C = num_chars = 60`.
* A pointer argument `char* text` is the list of bytes from the pointer to the end of the
  array it points into; when that array holds no NUL the string ends with the array.
-/

namespace Terminal

/-! ## Constants -/

/-- The macro `RADIO_BUFFER` (main.c line 29). -/
def RADIO_BUFFER : Nat := 256

/-- The macro `num_lines` (main.c line 45). -/
def num_lines : Nat := 17

/-- The macro `num_chars` (main.c line 46). -/
def num_chars : Nat := 60

/-! ## C library helpers -/

/-- The bytes of the C string that starts at the head of `text`: everything before the
first NUL. -/
def cstr (text : List Nat) : List Nat := text.takeWhile (fun c => c != 0)

/-- C `strlen`. -/
def strlen (text : List Nat) : Nat := (cstr text).length

/-- C `strncpy(dest, src, n)`: the first `n` bytes of `dest` become the string at `src`
cut to `n` bytes and, when it is shorter than `n`, padded with NULs up to `n` bytes. No
terminator is written when the string has `n` bytes or more. -/
def strncpy (dest src : List Nat) (n : Nat) : List Nat :=
  let s := (cstr src).take n
  ((s ++ List.replicate (n - s.length) 0).take dest.length) ++ dest.drop n

/-- C `memset(buf, c, n)`. -/
def memset (buf : List Nat) (c n : Nat) : List Nat :=
  (List.replicate n c).take buf.length ++ buf.drop n

/-! ## Globals -/

/-- The global arrays of main.c lines 48 to 51. -/
structure Globals where
  /-- The array `char line_buffers[num_lines][num_chars]`. -/
  line_buffers : List (List Nat)
  /-- The array `int line_index[num_lines]`. -/
  line_index : List Nat
  /-- The array `char input_buffer[num_chars]`. -/
  input_buffer : List Nat
  /-- The array `uint8_t led_buffer[6 * 3]`. -/
  led_buffer : List Nat
deriving DecidableEq, Repr

/-- The globals as the C runtime zero-initialises them before `app_main` runs. -/
def zeroed (L C : Nat) : Globals where
  line_buffers := List.replicate L (List.replicate C 0)
  line_index := List.replicate L 0
  input_buffer := List.replicate C 0
  led_buffer := List.replicate (6 * 3) 0

/-! ## Scrollback ring -/

/-- The function `init` (main.c lines 53 to 57): `line_index[i] = i` for `i < num_lines`. -/
def init (L : Nat) (g : Globals) : Globals :=
  { g with line_index := (List.range L).foldl (fun idx i => idx.set i i) g.line_index }

/-- The first loop of `add_line` (main.c lines 60 to 64), started at counter `i`: every
`'\r'` or `'\n'` below `strlen(text)` is overwritten with a space, the length being
re-evaluated before each round. `fuel` bounds the number of rounds. -/
def crlf_loop : Nat → Nat → List Nat → List Nat
  | 0, _, text => text
  | fuel + 1, i, text =>
    if i < strlen text then
      if text.getD i 0 = 13 ∨ text.getD i 0 = 10 then
        crlf_loop fuel (i + 1) (text.set i 32)
      else
        crlf_loop fuel (i + 1) text
    else text

/-- The second loop of `add_line` (main.c lines 65 to 67):
`line_index[i] = (line_index[i] + 1) % num_lines` for `i < num_lines`. -/
def rotate_index (L : Nat) (idx : List Nat) : List Nat :=
  (List.range L).foldl (fun a i => a.set i ((a.getD i 0 + 1) % L)) idx

/-- The function `add_line` (main.c lines 59 to 69). The result is the globals afterwards
together with the caller's `text` buffer as the first loop leaves it. The counter of the
first loop stays below `strlen(text)`, which is at most the length of the array, so
`text.length` rounds are enough for it to leave by its own test. -/
def add_line (L C : Nat) (g : Globals) (text : List Nat) : Globals × List Nat :=
  let text1 := crlf_loop text.length 0 text
  let idx := rotate_index L g.line_index
  let slot := idx.getD (L - 1) 0
  let row := strncpy (g.line_buffers.getD slot []) text1 C
  ({ g with line_index := idx, line_buffers := g.line_buffers.set slot row }, text1)

/-- What `printf("%s", line_buffers[slot])` and `pax_draw_text` read in `blit`: the bytes
from the start of row `slot` up to the first NUL. A row without NUL does not stop the
read, which runs on into the rows stored after it (the rows are contiguous in memory);
the model stops at the end of `line_buffers`. -/
def read_line (bufs : List (List Nat)) (slot : Nat) : List Nat :=
  cstr (bufs.drop slot).flatten

/-- The scrollback lines as `blit` shows them (main.c lines 74 to 81), top to bottom:
for `line = 0 .. num_lines - 1` the string read at `line_buffers[line_index[line]]`. -/
def snapshot (L : Nat) (g : Globals) : List (List Nat) :=
  (List.range L).map (fun line => read_line g.line_buffers (g.line_index.getD line 0))

/-- The last `n` entries of a list (all of it when it has fewer). -/
def lastN {α : Type} (n : Nat) (l : List α) : List α := l.drop (l.length - n)

/-- The bytes stored for a line: `'\r'` and `'\n'` replaced by a space. -/
def normalize (s : List Nat) : List Nat :=
  s.map (fun c => if c = 13 ∨ c = 10 then 32 else c)

/-- Calling `add_line` on each buffer of `texts`, in order. -/
def append_all (L C : Nat) (g : Globals) (texts : List (List Nat)) : Globals :=
  texts.foldl (fun g t => (add_line L C g t).1) g

/-- The ring after `init` on zeroed globals followed by `add_line` on each buffer of
`texts`, in order. -/
def ring_run (L C : Nat) (texts : List (List Nat)) : Globals :=
  append_all L C (init L (zeroed L C)) texts

/-- A string literal as bytes. -/
def bytes (s : String) : List Nat := s.toList.map Char.toNat

/-! ## Auxiliary notions for the ring -/

/-- The index array after `k` rotations of the identity. -/
def idxk (L k : Nat) : List Nat := (List.range L).map (fun i => (i + k) % L)

/-- The ring as `init` and `k` calls of `add_line` leave it: the index array is the identity
rotated `k` times and the storage is `L` rows of `C` bytes. -/
def RingInv (L C k : Nat) (g : Globals) : Prop :=
  g.line_index = idxk L k ∧ g.line_buffers.length = L ∧ ∀ row ∈ g.line_buffers, row.length = C

/-- The rows of the storage in the order of the index array, oldest first. -/
def rows (g : Globals) : List (List Nat) :=
  g.line_index.map (fun j => g.line_buffers.getD j [])

/-- The `C` bytes that `add_line` leaves in the slot it writes. -/
def stored_row (C : Nat) (text : List Nat) : List Nat :=
  (normalize (cstr text)).take C
    ++ List.replicate (C - ((normalize (cstr text)).take C).length) 0

/-- The newest line as `blit` shows it: the string read at
`line_buffers[line_index[num_lines - 1]]`. -/
def newest_line (L : Nat) (g : Globals) : List Nat :=
  read_line g.line_buffers (g.line_index.getD (L - 1) 0)

/-! ## LED overlay -/

/-- The function `set_led_color` (main.c lines 88 to 92); the three stores are to
`uint8_t` cells. -/
def set_led_color (g : Globals) (led color : Nat) : Globals :=
  let b0 := g.led_buffer.set (led * 3 + 0) (((color >>> 8) &&& 0xFF) % 256)
  let b1 := b0.set (led * 3 + 1) (((color >>> 16) &&& 0xFF) % 256)
  let b2 := b1.set (led * 3 + 2) (((color >>> 0) &&& 0xFF) % 256)
  { g with led_buffer := b2 }

/-! ## Events and effects -/

/-- Modelled from the spec: the navigation key identifiers of the header `bsp/input.h`,
which is not part of the sources. The loop compares the key with
`BSP_INPUT_NAVIGATION_KEY_RETURN` and `BSP_INPUT_NAVIGATION_KEY_F1` only; every other
identifier is `OTHER` with its code. -/
inductive NavKey where
  | RETURN
  | F1
  | OTHER (code : Nat)
deriving DecidableEq, Repr

/-- Modelled from the spec: the discriminated input event `bsp_input_event_t` of the
header `bsp/input.h`, which is not part of the sources: a keyboard event carries one
character, a navigation event a key and a pressed (`true`) or released (`false`) state;
the other kinds are not looked at by the loop. -/
inductive Event where
  | KEYBOARD (ascii : Nat)
  | NAVIGATION (key : NavKey) (state : Bool)
  | OTHER
deriving DecidableEq, Repr

/-- The calls by which one loop iteration acts on its collaborators, in program order. -/
inductive Effect where
  /-- The call `uart_read_bytes(RADIO_UART, data, length, ..)` with its `length`. -/
  | uart_read_bytes (length : Int)
  /-- The call `ESP_LOGE(TAG, "UART READ ERROR")`. -/
  | log_error
  /-- The call `printf("%s", data)` with the string printed. -/
  | printf (text : List Nat)
  /-- The call `blit(h_res, v_res)` with the scrollback lines and the editor text drawn. -/
  | blit (lines : List (List Nat)) (input : List Nat)
  /-- The call `xQueueReceive(input_event_queue, &event, ..)`. -/
  | xQueueReceive
  /-- The call `uart_write_bytes(RADIO_UART, src, size)` with the bytes sent. -/
  | uart_write_bytes (data : List Nat)
  /-- The image drawn and sent to the panel by `wallpaper`. -/
  | wallpaper_frame
  /-- The call `bsp_led_write(led_buffer, sizeof(led_buffer))` with the bytes written. -/
  | bsp_led_write (data : List Nat)
deriving DecidableEq, Repr

/-- The function `blit` (main.c lines 71 to 86) as an effect: it reads the globals and
changes none of them. -/
def blit (g : Globals) : Effect :=
  Effect.blit (snapshot num_lines g) (cstr g.input_buffer)

/-- The function `wallpaper` (main.c lines 94 to 104). -/
def wallpaper (g : Globals) : Globals × List Effect :=
  let g0 := set_led_color g 0 0xFC0303
  let g1 := set_led_color g0 1 0xFC6F03
  let g2 := set_led_color g1 2 0xF4FC03
  let g3 := set_led_color g2 3 0xFC03E3
  let g4 := set_led_color g3 4 0x0303FC
  let g5 := set_led_color g4 5 0x03FC03
  (g5, [Effect.wallpaper_frame, Effect.bsp_led_write g5.led_buffer])

/-! ## The main loop -/

/-- The keyboard case of the loop without its render (main.c lines 163 to 177). -/
def keyboard_edit (g : Globals) (ascii : Nat) : Globals :=
  if ascii = 8 then
    let length := strlen g.input_buffer
    if length > 0 then
      { g with input_buffer := g.input_buffer.set (length - 1) 0 }
    else g
  else if ascii = 13 ∨ ascii = 10 then
    g
  else
    let length := strlen g.input_buffer
    if length < num_chars - 1 then
      { g with input_buffer := (g.input_buffer.set length ascii).set (length + 1) 0 }
    else g

/-- The case `INPUT_EVENT_TYPE_KEYBOARD` (main.c lines 162 to 180). -/
def keyboard_event (g : Globals) (ascii : Nat) : Globals × List Effect :=
  let g1 := keyboard_edit g ascii
  (g1, [blit g1])

/-- The Return branch (main.c lines 189 to 194). `add_line` works on `input_buffer`
itself, so what its first loop leaves is the editor buffer that `memset` then clears. -/
def submit (g : Globals) : Globals × List Effect :=
  let w1 := Effect.uart_write_bytes (g.input_buffer.take (strlen g.input_buffer))
  let w2 := Effect.uart_write_bytes [13, 10]
  let r := add_line num_lines num_chars g g.input_buffer
  let g1 := { r.1 with input_buffer := r.2 }
  ({ g1 with input_buffer := memset g1.input_buffer 0 num_chars }, [w1, w2])

/-- The case `INPUT_EVENT_TYPE_NAVIGATION` (main.c lines 181 to 201). -/
def navigation_event (g : Globals) (key : NavKey) (state : Bool) : Globals × List Effect :=
  if state then
    let r1 := if key = NavKey.RETURN then submit g else (g, [])
    let e2 := [blit r1.1]
    let r3 := if key = NavKey.F1 then wallpaper r1.1 else (r1.1, [])
    (r3.1, r1.2 ++ e2 ++ r3.2)
  else (g, [])

/-- The `switch` on the event type (main.c lines 161 to 204). -/
def handle_event (g : Globals) : Event → Globals × List Effect
  | Event.KEYBOARD ascii => keyboard_event g ascii
  | Event.NAVIGATION key state => navigation_event g key state
  | Event.OTHER => (g, [])

/-- What the collaborators answer during one loop iteration. -/
structure Tick where
  /-- The byte count that `uart_get_buffered_data_len` stores. -/
  buffered : Nat
  /-- The value `uart_read_bytes` returns when it is called. -/
  read_ret : Int
  /-- The bytes the driver holds for `uart_read_bytes` to copy when it is called. -/
  read_data : List Nat
  /-- The event `xQueueReceive` delivers within its wait when it is called, if any. -/
  event : Option Event
deriving DecidableEq, Repr

/-- The `int length` after `uart_get_buffered_data_len(.., (size_t*)&length)` stored the
32-bit count `n` in it. -/
def int_of_size_t (n : Nat) : Int :=
  if n % 2 ^ 32 < 2 ^ 31 then ((n % 2 ^ 32 : Nat) : Int) else ((n % 2 ^ 32 : Nat) : Int) - 2 ^ 32

/-- The buffer `data` after `uart_read_bytes(.., data, length, ..)`: at most `length` of
the bytes the driver holds are copied to its start. -/
def uart_fill (data rx : List Nat) (length : Nat) : List Nat :=
  (rx.take length).take data.length ++ data.drop (rx.take length).length

/-- The value of `length` after main.c lines 142 to 147 when the transport reports `n`
buffered bytes: a count of `RADIO_BUFFER` or more becomes `RADIO_BUFFER - 1`. -/
def read_length (n : Nat) : Int :=
  let length : Int := int_of_size_t n
  if length ≥ (RADIO_BUFFER : Int) then (RADIO_BUFFER : Int) - 1 else length

/-- One iteration of the `while (1)` loop of `app_main` (main.c lines 141 to 207). -/
def loop_iter (g : Globals) (t : Tick) : Globals × List Effect :=
  let length1 : Int := read_length t.buffered
  if length1 > 0 then
    let data := uart_fill (List.replicate RADIO_BUFFER 0) t.read_data length1.toNat
    let length2 : Int := t.read_ret
    if length2 < 0 then
      (g, [Effect.uart_read_bytes length1, Effect.log_error])
    else
      let r := add_line num_lines num_chars g data
      (r.1, [Effect.uart_read_bytes length1, Effect.printf (cstr data), blit r.1])
  else
    match t.event with
    | some event =>
      let r := handle_event g event
      (r.1, Effect.xQueueReceive :: r.2)
    | none => (g, [Effect.xQueueReceive])

/-- The globals when the loop is entered: zeroed, then `init()` (main.c line 138). -/
def boot : Globals := init num_lines (zeroed num_lines num_chars)

/-- The globals after the loop iterations answered by `ticks`, in order. -/
def loop_state (ticks : List Tick) : Globals :=
  ticks.foldl (fun g t => (loop_iter g t).1) boot

/-- A loop iteration in which nothing is buffered on the transport and the queue delivers
`event`. -/
def event_tick (event : Event) : Tick :=
  { buffered := 0, read_ret := 0, read_data := [], event := some event }

/-- A loop iteration in which the transport holds the bytes `rx` and `uart_read_bytes`
returns their count. -/
def rx_tick (rx : List Nat) : Tick :=
  { buffered := rx.length, read_ret := rx.length, read_data := rx, event := none }

/-- The loop iterations of `n` keyboard events with the character `c`. -/
def typed (n c : Nat) : List Tick := List.replicate n (event_tick (Event.KEYBOARD c))

/-- The number of `blit` calls among the effects. -/
def count_blit (es : List Effect) : Nat :=
  (es.filter (fun e => match e with
    | Effect.blit _ _ => true
    | _ => false)).length

/-- The editor buffer as the loop keeps it: `num_chars` bytes, terminated within them, and
free of `'\r'` and `'\n'`. -/
def EdInv (b : List Nat) : Prop :=
  b.length = num_chars ∧ strlen b < num_chars ∧ 13 ∉ b ∧ 10 ∉ b

/-- What every state of the loop satisfies: the editor buffer is well formed and the ring
is the one left by `init` and some number of `add_line` calls. -/
def LoopInv (g : Globals) : Prop :=
  EdInv g.input_buffer ∧ ∃ k, RingInv num_lines num_chars k g

/-- The buffer `data` of main.c line 149 after the `uart_read_bytes` call of line 150:
zero-initialised, then filled with at most the requested number of bytes. -/
def rx_data (t : Tick) : List Nat :=
  uart_fill (List.replicate RADIO_BUFFER 0) t.read_data (read_length t.buffered).toNat

/-! ## A head-index circular buffer -/

/-- A circular buffer with an explicit head index: `L` rows and the physical slot `head`
of the logically oldest row, which is the slot the next append writes. -/
structure HeadRing where
  /-- The rows, by physical slot. -/
  storage : List (List Nat)
  /-- The physical slot of the oldest row. -/
  head : Nat
deriving DecidableEq, Repr

/-- The empty head-index buffer: `L` rows of `C` NUL bytes, head 0. -/
def head_init (L C : Nat) : HeadRing :=
  { storage := List.replicate L (List.replicate C 0), head := 0 }

/-- Append to the head-index buffer: the row at `head` is overwritten with the `C` bytes
stored for `text` and `head` advances by one modulo `L`. -/
def head_append (L C : Nat) (r : HeadRing) (text : List Nat) : HeadRing :=
  { storage := r.storage.set r.head (stored_row C text), head := (r.head + 1) % L }

/-- The head-index buffer after appending each buffer of `texts`, in order. -/
def head_run (L C : Nat) (texts : List (List Nat)) : HeadRing :=
  texts.foldl (head_append L C) (head_init L C)

/-- The physical slot of each logical position of the head-index buffer, oldest first:
position `i` is slot `(head + i) mod L`. -/
def head_order (L : Nat) (r : HeadRing) : List Nat :=
  (List.range L).map (fun i => (r.head + i) % L)

/-- The lines of the head-index buffer, oldest first. -/
def head_snapshot (L : Nat) (r : HeadRing) : List (List Nat) :=
  (List.range L).map (fun i => read_line r.storage ((r.head + i) % L))

/-! ## Lemmas -/

set_option maxRecDepth 100000

theorem cstr_nil : cstr [] = [] := rfl

theorem cstr_cons_zero (r : List Nat) : cstr (0 :: r) = [] := by
  simp [cstr]

theorem cstr_cons_ne (c : Nat) (r : List Nat) (h : c ≠ 0) : cstr (c :: r) = c :: cstr r := by
  simp [cstr, h]

theorem cstr_append_of_not_mem (pre rest : List Nat) (h : 0 ∉ pre) :
    cstr (pre ++ rest) = pre ++ cstr rest := by
  induction pre with
  | nil => rfl
  | cons c p ih =>
    have hc : c ≠ 0 := fun e => h (by simp [e])
    have hp : 0 ∉ p := fun e => h (by simp [e])
    rw [List.cons_append, cstr_cons_ne _ _ hc, ih hp, List.cons_append]

theorem cstr_append_of_mem (a b : List Nat) (h : 0 ∈ a) : cstr (a ++ b) = cstr a := by
  induction a with
  | nil => simp at h
  | cons c p ih =>
    by_cases hc : c = 0
    · subst hc; rw [List.cons_append, cstr_cons_zero, cstr_cons_zero]
    · have hp : 0 ∈ p := by
        rcases List.mem_cons.mp h with e | e
        · exact absurd e.symm hc
        · exact e
      rw [List.cons_append, cstr_cons_ne _ _ hc, cstr_cons_ne _ _ hc, ih hp]

theorem cstr_of_not_mem (s : List Nat) (h : 0 ∉ s) : cstr s = s := by
  have := cstr_append_of_not_mem s [] h
  simpa [cstr_nil] using this

theorem zero_not_mem_cstr (s : List Nat) : 0 ∉ cstr s := by
  induction s with
  | nil => simp [cstr]
  | cons c r ih =>
    by_cases hc : c = 0
    · subst hc; simp [cstr_cons_zero]
    · rw [cstr_cons_ne _ _ hc]
      intro h
      rcases List.mem_cons.mp h with e | e
      · exact hc e.symm
      · exact ih e

theorem strlen_le (s : List Nat) : strlen s ≤ s.length := by
  unfold strlen cstr
  exact (List.takeWhile_sublist _).length_le

theorem normalize_length (s : List Nat) : (normalize s).length = s.length := by
  simp [normalize]

theorem normalize_of_clean (s : List Nat) (h13 : 13 ∉ s) (h10 : 10 ∉ s) : normalize s = s := by
  unfold normalize
  conv_rhs => rw [← List.map_id s]
  apply List.map_congr_left
  intro c hc
  have h1 : c ≠ 13 := fun e => h13 (e ▸ hc)
  have h2 : c ≠ 10 := fun e => h10 (e ▸ hc)
  simp [h1, h2]

theorem zero_not_mem_normalize (s : List Nat) (h : 0 ∉ s) : 0 ∉ normalize s := by
  unfold normalize
  intro hm
  rcases List.mem_map.mp hm with ⟨c, hc, e⟩
  by_cases hcc : c = 13 ∨ c = 10
  · simp [hcc] at e
  · simp [hcc] at e
    exact h (e ▸ hc)

theorem crlf_loop_split (rest : List Nat) :
    ∀ (fuel : Nat) (pre : List Nat), 0 ∉ pre → strlen rest ≤ fuel →
      crlf_loop fuel pre.length (pre ++ rest)
        = pre ++ normalize (cstr rest) ++ rest.drop (strlen rest) := by
  induction rest with
  | nil =>
    intro fuel pre hpre _
    have hs : strlen (pre ++ []) = pre.length := by
      simp [strlen, cstr_of_not_mem pre hpre]
    cases fuel with
    | zero => simp [crlf_loop, cstr_nil, normalize]
    | succ f =>
      rw [crlf_loop, if_neg (by rw [hs]; exact Nat.lt_irrefl _)]
      simp [cstr_nil, normalize]
  | cons c r ih =>
    intro fuel pre hpre hfuel
    by_cases hc : c = 0
    · subst hc
      have hs : strlen (pre ++ 0 :: r) = pre.length := by
        simp [strlen, cstr_append_of_not_mem pre _ hpre, cstr_cons_zero]
      cases fuel with
      | zero => simp [crlf_loop, cstr_cons_zero, normalize, strlen]
      | succ f =>
        rw [crlf_loop, if_neg (by rw [hs]; exact Nat.lt_irrefl _)]
        simp [cstr_cons_zero, normalize, strlen]
    · have hsr : strlen (c :: r) = strlen r + 1 := by
        simp [strlen, cstr_cons_ne _ _ hc]
      have hs : pre.length < strlen (pre ++ c :: r) := by
        simp [strlen, cstr_append_of_not_mem pre _ hpre, cstr_cons_ne _ _ hc]
      cases fuel with
      | zero => omega
      | succ f =>
        have hf : strlen r ≤ f := by omega
        have hget : (pre ++ c :: r).getD pre.length 0 = c := by
          rw [List.getD_append_right _ _ _ _ (Nat.le_refl _)]
          simp
        have hset : (pre ++ c :: r).set pre.length 32 = (pre ++ [32]) ++ r := by
          simp [List.set_append]
        have hlen : pre.length + 1 = (pre ++ [32]).length := by simp
        have hlen2 : pre.length + 1 = (pre ++ [c]).length := by simp
        have hpre32 : 0 ∉ pre ++ [32] := by simp [hpre]
        have hprec : 0 ∉ pre ++ [c] := by
          simp [hpre]; exact fun e => hc e.symm
        have hsplit : pre ++ c :: r = (pre ++ [c]) ++ r := by simp
        rw [crlf_loop, if_pos hs, hget]
        by_cases hcr : c = 13 ∨ c = 10
        · rw [if_pos hcr, hset, hlen, ih f _ hpre32 hf, cstr_cons_ne _ _ hc, hsr]
          simp [normalize, hcr]
        · rw [if_neg hcr, hsplit, hlen2, ih f _ hprec hf, cstr_cons_ne _ _ hc, hsr]
          simp [normalize, hcr]

theorem crlf_loop_eq (text : List Nat) :
    crlf_loop text.length 0 text = normalize (cstr text) ++ text.drop (strlen text) := by
  have := crlf_loop_split text text.length [] (by simp) (strlen_le text)
  simpa using this

theorem normalize_cons (c : Nat) (r : List Nat) :
    normalize (c :: r) = (if c = 13 ∨ c = 10 then 32 else c) :: normalize r := rfl

theorem cstr_normalize_drop (text : List Nat) :
    cstr (normalize (cstr text) ++ text.drop (strlen text)) = normalize (cstr text) := by
  induction text with
  | nil => simp [cstr, normalize, strlen]
  | cons c r ih =>
    by_cases hc : c = 0
    · subst hc
      simp [cstr_cons_zero, normalize, strlen]
    · have hsr : strlen (c :: r) = strlen r + 1 := by
        simp [strlen, cstr_cons_ne _ _ hc]
      have hf : (if c = 13 ∨ c = 10 then 32 else c) ≠ 0 := by
        split <;> simp [hc]
      rw [hsr, cstr_cons_ne _ _ hc, normalize_cons, List.drop_succ_cons, List.cons_append,
        cstr_cons_ne _ _ hf, ih]

theorem cstr_crlf_loop (text : List Nat) :
    cstr (crlf_loop text.length 0 text) = normalize (cstr text) := by
  rw [crlf_loop_eq, cstr_normalize_drop]

theorem foldl_set_range_map (h : Nat → Nat) (a : List Nat) : ∀ n, n ≤ a.length →
    (List.range n).foldl (fun b i => b.set i (h (b.getD i 0))) a
      = (a.take n).map h ++ a.drop n := by
  intro n
  induction n with
  | zero => intro _; simp
  | succ n ih =>
    intro hn
    have hlt : n < a.length := by omega
    have hlen : ((a.take n).map h).length = n := by simp; omega
    rw [List.range_succ, List.foldl_append, ih (by omega)]
    simp only [List.foldl_cons, List.foldl_nil]
    rw [List.getD_append_right _ _ _ _ (by rw [hlen]), hlen, Nat.sub_self,
      List.drop_eq_getElem_cons hlt]
    simp only [List.getD_cons_zero]
    rw [List.set_append_right _ _ (by rw [hlen]), hlen, Nat.sub_self, List.set_cons_zero,
      List.take_succ, List.getElem?_eq_getElem hlt, Option.toList_some, List.map_append,
      List.map_singleton, List.append_assoc, List.singleton_append]

theorem foldl_set_range_init (a : List Nat) : ∀ n, n ≤ a.length →
    (List.range n).foldl (fun idx i => idx.set i i) a = List.range n ++ a.drop n := by
  intro n
  induction n with
  | zero => intro _; simp
  | succ n ih =>
    intro hn
    have hlt : n < a.length := by omega
    rw [List.range_succ, List.foldl_append, ih (by omega)]
    simp only [List.foldl_cons, List.foldl_nil]
    rw [List.set_append_right _ _ (by simp), List.length_range, Nat.sub_self,
      List.drop_eq_getElem_cons hlt, List.set_cons_zero]
    simp

theorem idxk_length (L k : Nat) : (idxk L k).length = L := by simp [idxk]

theorem init_line_index (L : Nat) (g : Globals) (h : g.line_index.length = L) :
    (init L g).line_index = idxk L 0 := by
  unfold init
  simp only
  rw [foldl_set_range_init _ L (by omega), List.drop_of_length_le (by omega), List.append_nil]
  unfold idxk
  conv_lhs => rw [← List.map_id (List.range L)]
  apply List.map_congr_left
  intro i hi
  simp [Nat.mod_eq_of_lt (List.mem_range.mp hi)]

theorem rotate_index_idxk (L k : Nat) : rotate_index L (idxk L k) = idxk L (k + 1) := by
  unfold rotate_index
  rw [foldl_set_range_map (fun x => (x + 1) % L) _ L (by rw [idxk_length]),
    List.drop_of_length_le (by rw [idxk_length]), List.append_nil,
    List.take_of_length_le (by rw [idxk_length])]
  unfold idxk
  rw [List.map_map]
  apply List.map_congr_left
  intro i _
  simp only [Function.comp]
  rw [Nat.mod_add_mod, Nat.add_assoc]

theorem idxk_getD (L k i : Nat) (hi : i < L) : (idxk L k).getD i 0 = (i + k) % L := by
  unfold idxk
  rw [List.getD_eq_getElem _ _ (by simpa using hi)]
  simp

theorem idxk_last (L k : Nat) (hL : 0 < L) : (idxk L (k + 1)).getD (L - 1) 0 = k % L := by
  rw [idxk_getD L (k + 1) (L - 1) (by omega)]
  have : L - 1 + (k + 1) = k + L := by omega
  rw [this, Nat.add_mod_right]

theorem idxk_succ_ne (L k i : Nat) (hi : i + 1 < L) : (i + 1 + k) % L ≠ k % L := by
  intro h
  have h1 : (i + 1 + k) % L = (0 + k) % L := by simpa using h
  have h2 : (i + 1) % L = 0 % L := Nat.ModEq.add_right_cancel' k h1
  rw [Nat.mod_eq_of_lt hi, Nat.zero_mod] at h2
  omega

theorem stored_row_length (C : Nat) (text : List Nat) : (stored_row C text).length = C := by
  unfold stored_row
  rw [List.length_append, List.length_replicate]
  have : ((normalize (cstr text)).take C).length ≤ C := by
    rw [List.length_take]; exact Nat.min_le_left _ _
  omega

theorem strncpy_row (C : Nat) (dest text : List Nat) (hd : dest.length = C) :
    strncpy dest (crlf_loop text.length 0 text) C = stored_row C text := by
  unfold strncpy
  simp only
  rw [cstr_crlf_loop, List.drop_of_length_le (by omega), List.append_nil]
  have := stored_row_length C text
  unfold stored_row at this ⊢
  rw [List.take_of_length_le (by omega)]

theorem add_line_eq (L C k : Nat) (g : Globals) (text : List Nat) (hL : 0 < L)
    (hinv : RingInv L C k g) :
    add_line L C g text
      = ({ g with line_index := idxk L (k + 1),
                  line_buffers := g.line_buffers.set (k % L) (stored_row C text) },
         normalize (cstr text) ++ text.drop (strlen text)) := by
  obtain ⟨hidx, hlen, hrows⟩ := hinv
  have hk : k % L < g.line_buffers.length := by rw [hlen]; exact Nat.mod_lt _ hL
  have hrow : (g.line_buffers.getD (k % L) []).length = C := by
    rw [List.getD_eq_getElem _ _ hk]
    exact hrows _ (List.getElem_mem _)
  unfold add_line
  simp only
  rw [hidx, rotate_index_idxk, idxk_last L k hL, strncpy_row C _ text hrow, crlf_loop_eq]

theorem add_line_inv (L C k : Nat) (g : Globals) (text : List Nat) (hL : 0 < L)
    (hinv : RingInv L C k g) : RingInv L C (k + 1) (add_line L C g text).1 := by
  rw [add_line_eq L C k g text hL hinv]
  obtain ⟨_, hlen, hrows⟩ := hinv
  refine ⟨rfl, by simpa using hlen, ?_⟩
  intro row hrow
  simp only at hrow
  rcases List.mem_or_eq_of_mem_set hrow with h | h
  · exact hrows row h
  · rw [h]; exact stored_row_length C text

theorem init_inv (L C : Nat) : RingInv L C 0 (init L (zeroed L C)) := by
  refine ⟨init_line_index L _ (by simp [zeroed]), by simp [init, zeroed], ?_⟩
  intro row hrow
  simp only [init, zeroed] at hrow
  rw [List.eq_of_mem_replicate hrow, List.length_replicate]

theorem rows_length (L C k : Nat) (g : Globals) (hinv : RingInv L C k g) :
    (rows g).length = L := by
  unfold rows
  rw [List.length_map, hinv.1, idxk_length]

theorem rows_add_line (L C k : Nat) (g : Globals) (text : List Nat) (hL : 0 < L)
    (hinv : RingInv L C k g) :
    rows (add_line L C g text).1 = (rows g).tail ++ [stored_row C text] := by
  rw [add_line_eq L C k g text hL hinv]
  obtain ⟨hidx, hlen, _⟩ := hinv
  unfold rows
  simp only
  rw [hidx]
  apply List.ext_getElem
  · simp [idxk_length]; omega
  · intro i h1 h2
    have hi : i < L := by simpa [idxk_length] using h1
    have hk : k % L < g.line_buffers.length := by rw [hlen]; exact Nat.mod_lt _ hL
    rw [List.getElem_map]
    have hb1 : i < (idxk L (k + 1)).length := by rw [idxk_length]; exact hi
    have e1 : (idxk L (k + 1))[i] = (i + (k + 1)) % L := by simp [idxk]
    rw [e1]
    by_cases hlast : i + 1 < L
    · have hne : (i + (k + 1)) % L ≠ k % L := by
        have := idxk_succ_ne L k i hlast
        rwa [show i + 1 + k = i + (k + 1) by omega] at this
      rw [List.getElem_append_left (by simp [idxk_length]; omega)]
      rw [List.getElem_tail, List.getElem_map]
      have hb2 : i + 1 < (idxk L k).length := by rw [idxk_length]; exact hlast
      have e2 : (idxk L k)[i + 1] = (i + (k + 1)) % L := by
        simp [idxk]; congr 1; omega
      rw [e2, List.getD_eq_getElem?_getD, List.getD_eq_getElem?_getD,
        List.getElem?_set_ne (fun e => hne e.symm)]
    · have hiL : i = L - 1 := by omega
      have e3 : (i + (k + 1)) % L = k % L := by
        rw [hiL, show L - 1 + (k + 1) = k + L by omega, Nat.add_mod_right]
      rw [e3, List.getElem_append_right (by simp [idxk_length]; omega)]
      simp [List.getD_eq_getElem?_getD, hk]

theorem append_all_cons (L C : Nat) (g : Globals) (t : List Nat) (ts : List (List Nat)) :
    append_all L C g (t :: ts) = append_all L C (add_line L C g t).1 ts := rfl

theorem append_all_append (L C : Nat) (g : Globals) (ts us : List (List Nat)) :
    append_all L C g (ts ++ us) = append_all L C (append_all L C g ts) us := by
  unfold append_all
  rw [List.foldl_append]

theorem append_all_inv (L C : Nat) (hL : 0 < L) (ts : List (List Nat)) :
    ∀ (k : Nat) (g : Globals), RingInv L C k g → RingInv L C (k + ts.length) (append_all L C g ts) := by
  induction ts with
  | nil => intro k g h; exact h
  | cons t ts ih =>
    intro k g h
    rw [append_all_cons, List.length_cons, show k + (ts.length + 1) = (k + 1) + ts.length by omega]
    exact ih (k + 1) _ (add_line_inv L C k g t hL h)

theorem ring_run_inv (L C : Nat) (hL : 0 < L) (ts : List (List Nat)) :
    RingInv L C ts.length (ring_run L C ts) := by
  have := append_all_inv L C hL ts 0 _ (init_inv L C)
  simpa [ring_run] using this

theorem lastN_of_length {α : Type} (L : Nat) (xs : List α) (h : xs.length ≤ L) :
    lastN L xs = xs := by
  unfold lastN
  rw [Nat.sub_eq_zero_of_le h, List.drop_zero]

theorem lastN_length {α : Type} (L : Nat) (xs : List α) (h : L ≤ xs.length) :
    (lastN L xs).length = L := by
  unfold lastN
  rw [List.length_drop]; omega

theorem lastN_map {α β : Type} (f : α → β) (L : Nat) (xs : List α) :
    lastN L (xs.map f) = (lastN L xs).map f := by
  unfold lastN
  rw [List.length_map, List.map_drop]

theorem lastN_tail_append {α : Type} (L : Nat) (xs ys : List α) (hx : xs.length = L)
    (hy : ys ≠ []) : lastN L (xs.tail ++ ys) = lastN L (xs ++ ys) := by
  cases xs with
  | nil => rfl
  | cons x xs =>
    have hyl : 0 < ys.length := List.length_pos.mpr hy
    simp only [List.length_cons] at hx
    unfold lastN
    simp only [List.tail_cons, List.cons_append, List.length_cons, List.length_append]
    rw [show xs.length + ys.length + 1 - L = (xs.length + ys.length - L) + 1 by omega,
      List.drop_succ_cons]

theorem rows_append_all (L C : Nat) (hL : 0 < L) (ts : List (List Nat)) :
    ∀ (k : Nat) (g : Globals), RingInv L C k g →
      rows (append_all L C g ts) = lastN L (rows g ++ ts.map (stored_row C)) := by
  induction ts with
  | nil =>
    intro k g h
    rw [List.map_nil, List.append_nil, lastN_of_length L _ (by rw [rows_length L C k g h])]
    rfl
  | cons t ts ih =>
    intro k g h
    rw [append_all_cons, ih (k + 1) _ (add_line_inv L C k g t hL h),
      rows_add_line L C k g t hL h, List.append_assoc, List.singleton_append, List.map_cons,
      lastN_tail_append L _ _ (rows_length L C k g h) (by simp)]

theorem read_line_of_terminated (bufs : List (List Nat)) (j : Nat) (hj : j < bufs.length)
    (h0 : 0 ∈ bufs.getD j []) : read_line bufs j = cstr (bufs.getD j []) := by
  unfold read_line
  rw [List.getD_eq_getElem _ _ hj] at h0 ⊢
  rw [List.drop_eq_getElem_cons hj, List.flatten_cons, cstr_append_of_mem _ _ h0]

theorem map_range_getD {β : Type} (f : Nat → β) (idx : List Nat) :
    (List.range idx.length).map (fun i => f (idx.getD i 0)) = idx.map f := by
  apply List.ext_getElem
  · simp
  · intro i h1 h2
    have hi : i < idx.length := by simpa using h2
    simp [List.getD_eq_getElem?_getD, List.getElem?_eq_getElem hi]

theorem snapshot_eq_rows (L C k : Nat) (g : Globals) (hinv : RingInv L C k g)
    (hterm : ∀ row ∈ g.line_buffers, 0 ∈ row) : snapshot L g = (rows g).map cstr := by
  obtain ⟨hidx, hlen, _⟩ := hinv
  have hil : g.line_index.length = L := by rw [hidx, idxk_length]
  unfold snapshot rows
  rw [← hil, map_range_getD (fun j => read_line g.line_buffers j), List.map_map]
  apply List.map_congr_left
  intro j hj
  have hjL : j < g.line_buffers.length := by
    rw [hidx] at hj
    unfold idxk at hj
    rcases List.mem_map.mp hj with ⟨i, hi, e⟩
    rw [hlen, ← e]
    have hiL : i < L := List.mem_range.mp hi
    exact Nat.mod_lt _ (by omega)
  have hmem : g.line_buffers.getD j [] ∈ g.line_buffers := by
    rw [List.getD_eq_getElem _ _ hjL]; exact List.getElem_mem _
  simp only [Function.comp]
  exact read_line_of_terminated _ j hjL (hterm _ hmem)

theorem cstr_replicate_zero (n : Nat) : cstr (List.replicate n 0) = [] := by
  cases n with
  | zero => rfl
  | succ n => rw [List.replicate_succ, cstr_cons_zero]

theorem stored_row_short (C : Nat) (text : List Nat) (h : strlen text < C) :
    stored_row C text = normalize (cstr text) ++ List.replicate (C - strlen text) 0 := by
  unfold stored_row
  have hl : (normalize (cstr text)).length = strlen text := by
    rw [normalize_length]; rfl
  rw [List.take_of_length_le (by omega), hl]

theorem cstr_stored_row (C : Nat) (text : List Nat) (h : strlen text < C) :
    cstr (stored_row C text) = normalize (cstr text) := by
  rw [stored_row_short C text h,
    cstr_append_of_not_mem _ _ (zero_not_mem_normalize _ (zero_not_mem_cstr text)),
    cstr_replicate_zero, List.append_nil]

theorem stored_row_terminated (C : Nat) (text : List Nat) (h : strlen text < C) :
    0 ∈ stored_row C text := by
  rw [stored_row_short C text h]
  apply List.mem_append_right
  rw [List.mem_replicate]
  exact ⟨by omega, rfl⟩

theorem idxk_eq_rotate (L k : Nat) : idxk L k = (List.range L).rotate k := by
  apply List.ext_getElem
  · simp [idxk]
  · intro i h1 h2
    simp [idxk, List.getElem_rotate]

theorem idxk_perm (L k : Nat) : (idxk L k).Perm (List.range L) := by
  rw [idxk_eq_rotate]
  exact List.rotate_perm _ _

theorem map_range_getD_rows (bufs : List (List Nat)) :
    (List.range bufs.length).map (fun j => bufs.getD j []) = bufs := by
  apply List.ext_getElem
  · simp
  · intro i h1 h2
    simp [List.getD_eq_getElem?_getD, List.getElem?_eq_getElem h2]

theorem rows_perm (L C k : Nat) (g : Globals) (hinv : RingInv L C k g) :
    (rows g).Perm g.line_buffers := by
  obtain ⟨hidx, hlen, _⟩ := hinv
  unfold rows
  rw [hidx]
  have h := (idxk_perm L k).map (fun j => g.line_buffers.getD j [])
  rw [← hlen, map_range_getD_rows] at h
  rw [← hlen]
  exact h

theorem rows_init (L C : Nat) :
    rows (init L (zeroed L C)) = List.replicate L (List.replicate C 0) := by
  have hinv := init_inv L C
  rw [List.eq_replicate_iff]
  refine ⟨rows_length L C 0 _ hinv, ?_⟩
  intro b hb
  have hb2 : b ∈ (init L (zeroed L C)).line_buffers := (rows_perm L C 0 _ hinv).subset hb
  simp only [init, zeroed] at hb2
  exact List.eq_of_mem_replicate hb2

theorem snapshot_of_rows_terminated (L C k : Nat) (g : Globals) (hinv : RingInv L C k g)
    (hterm : ∀ row ∈ rows g, 0 ∈ row) : snapshot L g = (rows g).map cstr :=
  snapshot_eq_rows L C k g hinv
    (fun row hrow => hterm row ((rows_perm L C k g hinv).symm.subset hrow))

theorem snapshot_length (L : Nat) (g : Globals) : (snapshot L g).length = L := by
  simp [snapshot]

theorem snapshot_getLast (L : Nat) (g : Globals) (hL : 0 < L) :
    (snapshot L g).getLast? = some (newest_line L g) := by
  obtain ⟨n, rfl⟩ : ∃ n, L = n + 1 := ⟨L - 1, by omega⟩
  simp [snapshot, newest_line, List.range_succ]

theorem newest_line_add_line (L C k : Nat) (g : Globals) (text : List Nat) (hL : 0 < L)
    (hinv : RingInv L C k g) (ht : strlen text < C) :
    newest_line L (add_line L C g text).1 = normalize (cstr text) := by
  rw [add_line_eq L C k g text hL hinv]
  have hk : k % L < g.line_buffers.length := by rw [hinv.2.1]; exact Nat.mod_lt _ hL
  have hk2 : k % L < (g.line_buffers.set (k % L) (stored_row C text)).length := by
    rw [List.length_set]; exact hk
  have hget : (g.line_buffers.set (k % L) (stored_row C text)).getD (k % L) []
      = stored_row C text := by
    rw [List.getD_eq_getElem _ _ hk2, List.getElem_set_self]
  unfold newest_line
  simp only
  rw [idxk_last L k hL, read_line_of_terminated _ _ hk2
    (by rw [hget]; exact stored_row_terminated C text ht), hget, cstr_stored_row C text ht]

theorem normalize_getD (s : List Nat) (i : Nat) (hi : i < s.length) :
    (normalize s).getD i 0 = if s.getD i 0 = 13 ∨ s.getD i 0 = 10 then 32 else s.getD i 0 := by
  unfold normalize
  rw [List.getD_eq_getElem _ _ (by simpa using hi), List.getD_eq_getElem _ _ hi,
    List.getElem_map]

theorem cstr_getD (text : List Nat) (i : Nat) (hi : i < strlen text) :
    (cstr text).getD i 0 = text.getD i 0 := by
  induction text generalizing i with
  | nil => simp [strlen, cstr] at hi
  | cons c r ih =>
    by_cases hc : c = 0
    · subst hc; simp [strlen, cstr_cons_zero] at hi
    · rw [cstr_cons_ne _ _ hc]
      cases i with
      | zero => simp
      | succ i =>
        have hi2 : i < strlen r := by
          simp only [strlen, cstr_cons_ne _ _ hc, List.length_cons] at hi
          unfold strlen; omega
        simpa using ih i hi2

theorem newest_row_add_line (L C k : Nat) (g : Globals) (text : List Nat) (hL : 0 < L)
    (hinv : RingInv L C k g) :
    (add_line L C g text).1.line_buffers.getD
        ((add_line L C g text).1.line_index.getD (L - 1) 0) []
      = stored_row C text := by
  rw [add_line_eq L C k g text hL hinv]
  have hk : k % L < (g.line_buffers.set (k % L) (stored_row C text)).length := by
    rw [List.length_set, hinv.2.1]; exact Nat.mod_lt _ hL
  simp only
  rw [idxk_last L k hL, List.getD_eq_getElem _ _ hk, List.getElem_set_self]

theorem stored_row_getD (C : Nat) (text : List Nat) (i : Nat) (hi : i < strlen text)
    (hiC : i < C) :
    (stored_row C text).getD i 0
      = if text.getD i 0 = 13 ∨ text.getD i 0 = 10 then 32 else text.getD i 0 := by
  have hl : (normalize (cstr text)).length = strlen text := by
    rw [normalize_length]; rfl
  unfold stored_row
  rw [List.getD_append _ _ _ _ (by rw [List.length_take, hl]; omega),
    List.getD_eq_getElem?_getD, List.getElem?_take_of_lt hiC, ← List.getD_eq_getElem?_getD,
    normalize_getD _ i hi, cstr_getD text i hi]

theorem snapshot_after_full_turn (L C k : Nat) (g : Globals) (hL : 0 < L)
    (hinv : RingInv L C k g) (first : List Nat) (rest : List (List Nat))
    (hlen : rest.length = L) (hshort : ∀ t ∈ rest, strlen t < C) :
    snapshot L (append_all L C g (first :: rest))
      = rest.map (fun t => normalize (cstr t)) := by
  have hinv2 := append_all_inv L C hL (first :: rest) k g hinv
  have hrows : rows (append_all L C g (first :: rest)) = rest.map (stored_row C) := by
    rw [rows_append_all L C hL _ k g hinv]
    unfold lastN
    have hr := rows_length L C k g hinv
    rw [List.length_append, List.length_map, List.length_cons, hr, hlen,
      show L + (L + 1) - L = (rows g).length + 1 by omega, List.drop_append, List.map_cons,
      List.drop_succ_cons, List.drop_zero]
  have hterm : ∀ row ∈ rows (append_all L C g (first :: rest)), 0 ∈ row := by
    intro row hrow
    rw [hrows] at hrow
    rcases List.mem_map.mp hrow with ⟨t, ht, e⟩
    rw [← e]
    exact stored_row_terminated C t (hshort t ht)
  rw [snapshot_of_rows_terminated L C _ _ hinv2 hterm, hrows, List.map_map]
  apply List.map_congr_left
  intro t ht
  simp only [Function.comp]
  exact cstr_stored_row C t (hshort t ht)

theorem take_strlen (b : List Nat) : b.take (strlen b) = cstr b := by
  induction b with
  | nil => rfl
  | cons c r ih =>
    by_cases hc : c = 0
    · subst hc; simp [strlen, cstr_cons_zero]
    · have hsr : strlen (c :: r) = strlen r + 1 := by
        simp [strlen, cstr_cons_ne _ _ hc]
      rw [hsr, List.take_succ_cons, ih, cstr_cons_ne _ _ hc]

theorem split_at_strlen (b : List Nat) : cstr b ++ b.drop (strlen b) = b := by
  rw [← take_strlen, List.take_append_drop]

theorem cstr_head_zero (p r : List Nat) (hp : 0 ∉ p) : cstr (p ++ 0 :: r) = p := by
  rw [cstr_append_of_not_mem p _ hp, cstr_cons_zero, List.append_nil]

theorem set_at_strlen (b : List Nat) (c : Nat) (h : strlen b < b.length) :
    b.set (strlen b) c = cstr b ++ c :: b.drop (strlen b + 1) := by
  have e : b.set (strlen b) c = (cstr b ++ b.drop (strlen b)).set (strlen b) c := by
    rw [split_at_strlen]
  have hl : (cstr b).length = strlen b := rfl
  rw [e, List.set_append_right _ _ (by rw [hl]), hl, Nat.sub_self,
    List.drop_eq_getElem_cons h, List.set_cons_zero]

/-- The editor text after a push of `c` on a buffer with room for `c` and a terminator. -/
theorem cstr_push (b : List Nat) (c : Nat) (h : strlen b + 1 < b.length) :
    cstr ((b.set (strlen b) c).set (strlen b + 1) 0)
      = if c = 0 then cstr b else cstr b ++ [c] := by
  have h1 : strlen b < b.length := by omega
  rw [set_at_strlen b c h1]
  have hl : (cstr b).length = strlen b := rfl
  have hdrop : b.drop (strlen b + 1) = b[strlen b + 1] :: b.drop (strlen b + 1 + 1) :=
    List.drop_eq_getElem_cons h
  rw [List.set_append_right _ _ (by rw [hl]; omega), hl,
    show strlen b + 1 - strlen b = 1 by omega, List.set_cons_succ, hdrop, List.set_cons_zero]
  by_cases hc : c = 0
  · subst hc
    rw [if_pos rfl, cstr_head_zero _ _ (zero_not_mem_cstr b)]
  · rw [if_neg hc, show cstr b ++ c :: 0 :: b.drop (strlen b + 1 + 1)
        = (cstr b ++ [c]) ++ 0 :: b.drop (strlen b + 1 + 1) by simp]
    apply cstr_head_zero
    intro hm
    rcases List.mem_append.mp hm with h0 | h0
    · exact zero_not_mem_cstr b h0
    · simp at h0; exact hc h0.symm

/-- The editor text after a backspace on a non-empty text. -/
theorem cstr_backspace (b : List Nat) (h : 0 < strlen b) :
    cstr (b.set (strlen b - 1) 0) = (cstr b).dropLast := by
  have hne : cstr b ≠ [] := by
    intro e; unfold strlen at h; rw [e] at h; simp at h
  have hl : (cstr b).length = strlen b := rfl
  have hsplit : cstr b = (cstr b).dropLast ++ [(cstr b).getLast hne] :=
    (List.dropLast_append_getLast hne).symm
  have hdl : ((cstr b).dropLast).length = strlen b - 1 := by
    rw [List.length_dropLast, hl]
  have h0 : 0 ∉ (cstr b).dropLast :=
    fun hm => zero_not_mem_cstr b ((List.dropLast_subset _) hm)
  have e : b.set (strlen b - 1) 0
      = (((cstr b).dropLast ++ [(cstr b).getLast hne]) ++ b.drop (strlen b)).set
          (strlen b - 1) 0 := by
    rw [← hsplit, split_at_strlen]
  rw [e, List.set_append_left _ _ (by rw [← hsplit, hl]; omega),
    List.set_append_right _ _ (by rw [hdl]), hdl, Nat.sub_self, List.set_cons_zero,
    List.append_assoc, List.singleton_append]
  exact cstr_head_zero _ _ h0

theorem strlen_lt_iff_mem (b : List Nat) : strlen b < b.length ↔ 0 ∈ b := by
  constructor
  · intro h
    by_contra hn
    have := cstr_of_not_mem b hn
    unfold strlen at h
    rw [this] at h
    omega
  · intro h
    by_contra hn
    have hle := strlen_le b
    have heq : (cstr b).length = b.length := by unfold strlen at hn hle; omega
    have hsub : (cstr b).Sublist b := List.takeWhile_sublist _
    have hcb := hsub.eq_of_length heq
    have h2 : 0 ∈ cstr b := by rw [hcb]; exact h
    exact zero_not_mem_cstr b h2

theorem memset_full (b : List Nat) (c : Nat) : memset b c b.length = List.replicate b.length c := by
  unfold memset
  rw [List.take_of_length_le (by simp), List.drop_length, List.append_nil]

theorem crlf_loop_length (text : List Nat) :
    (crlf_loop text.length 0 text).length = text.length := by
  rw [crlf_loop_eq]
  conv_rhs => rw [← split_at_strlen text]
  simp [normalize_length]

theorem not_mem_set (b : List Nat) (i c x : Nat) (hb : x ∉ b) (hc : x ≠ c) : x ∉ b.set i c := by
  intro hm
  rcases List.mem_or_eq_of_mem_set hm with h | h
  · exact hb h
  · exact hc h

theorem edInv_zero : EdInv (List.replicate num_chars 0) := by
  unfold EdInv; decide

theorem keyboard_edit_ring (g : Globals) (ascii : Nat) :
    (keyboard_edit g ascii).line_buffers = g.line_buffers
    ∧ (keyboard_edit g ascii).line_index = g.line_index
    ∧ (keyboard_edit g ascii).led_buffer = g.led_buffer := by
  unfold keyboard_edit
  split
  · simp only; split <;> exact ⟨rfl, rfl, rfl⟩
  · split
    · exact ⟨rfl, rfl, rfl⟩
    · simp only; split <;> exact ⟨rfl, rfl, rfl⟩

theorem keyboard_edit_text (g : Globals) (ascii : Nat) (h : EdInv g.input_buffer) :
    cstr (keyboard_edit g ascii).input_buffer =
      if ascii = 8 then (cstr g.input_buffer).dropLast
      else if ascii = 13 ∨ ascii = 10 then cstr g.input_buffer
      else if strlen g.input_buffer < num_chars - 1 ∧ ascii ≠ 0 then cstr g.input_buffer ++ [ascii]
      else cstr g.input_buffer := by
  obtain ⟨hlen, hs, _, _⟩ := h
  unfold keyboard_edit
  by_cases h8 : ascii = 8
  · rw [if_pos h8, if_pos h8]
    simp only
    by_cases hpos : strlen g.input_buffer > 0
    · rw [if_pos hpos]; exact cstr_backspace _ hpos
    · rw [if_neg hpos]
      have : cstr g.input_buffer = [] := by
        apply List.eq_nil_of_length_eq_zero; unfold strlen at hpos; omega
      rw [this]; rfl
  · rw [if_neg h8, if_neg h8]
    by_cases hcr : ascii = 13 ∨ ascii = 10
    · rw [if_pos hcr, if_pos hcr]
    · rw [if_neg hcr, if_neg hcr]
      simp only
      have hnc : num_chars = 60 := rfl
      by_cases hroom : strlen g.input_buffer < num_chars - 1
      · rw [if_pos hroom]
        simp only
        rw [cstr_push _ _ (by omega)]
        by_cases h0 : ascii = 0
        · rw [if_pos h0, if_neg (by simp [h0])]
        · rw [if_neg h0, if_pos ⟨hroom, h0⟩]
      · rw [if_neg hroom, if_neg (fun h => hroom h.1)]

theorem keyboard_edit_inv (g : Globals) (ascii : Nat) (h : EdInv g.input_buffer) :
    EdInv (keyboard_edit g ascii).input_buffer := by
  have htext := keyboard_edit_text g ascii h
  obtain ⟨hlen, hs, h13, h10⟩ := h
  have hnc : num_chars = 60 := rfl
  have hstr : strlen (keyboard_edit g ascii).input_buffer < num_chars := by
    unfold strlen at hs ⊢
    rw [htext]
    split
    · rw [List.length_dropLast]; omega
    · split
      · exact hs
      · split
        · rename_i hr; unfold strlen at hr; rw [List.length_append, List.length_singleton]; omega
        · exact hs
  unfold keyboard_edit at hstr ⊢
  by_cases h8 : ascii = 8
  · rw [if_pos h8] at hstr ⊢
    simp only at hstr ⊢
    split
    · refine ⟨by simpa using hlen, ?_, not_mem_set _ _ _ _ h13 (by decide),
        not_mem_set _ _ _ _ h10 (by decide)⟩
      rename_i hp; rw [if_pos hp] at hstr; exact hstr
    · exact ⟨hlen, hs, h13, h10⟩
  · rw [if_neg h8] at hstr ⊢
    by_cases hcr : ascii = 13 ∨ ascii = 10
    · rw [if_pos hcr]; exact ⟨hlen, hs, h13, h10⟩
    · rw [if_neg hcr] at hstr ⊢
      simp only at hstr ⊢
      split
      · rename_i hp
        rw [if_pos hp] at hstr
        refine ⟨by simpa using hlen, hstr, ?_, ?_⟩
        · exact not_mem_set _ _ _ _ (not_mem_set _ _ _ _ h13 (fun e => hcr (Or.inl e.symm)))
            (by decide)
        · exact not_mem_set _ _ _ _ (not_mem_set _ _ _ _ h10 (fun e => hcr (Or.inr e.symm)))
            (by decide)
      · exact ⟨hlen, hs, h13, h10⟩

theorem memset_of_length (b : List Nat) (c n : Nat) (h : b.length = n) :
    memset b c n = List.replicate n c := by
  subst h; exact memset_full b c

theorem submit_eq (g : Globals) (k : Nat) (hr : RingInv num_lines num_chars k g)
    (he : EdInv g.input_buffer) :
    submit g
      = ({ line_buffers :=
             g.line_buffers.set (k % num_lines) (stored_row num_chars g.input_buffer),
           line_index := idxk num_lines (k + 1),
           input_buffer := List.replicate num_chars 0,
           led_buffer := g.led_buffer },
         [Effect.uart_write_bytes (cstr g.input_buffer), Effect.uart_write_bytes [13, 10]]) := by
  have hlen : (crlf_loop g.input_buffer.length 0 g.input_buffer).length = num_chars := by
    rw [crlf_loop_length]; exact he.1
  have h2 : (add_line num_lines num_chars g g.input_buffer).2
      = crlf_loop g.input_buffer.length 0 g.input_buffer := rfl
  unfold submit
  simp only
  rw [h2, memset_of_length _ 0 num_chars hlen, take_strlen,
    add_line_eq num_lines num_chars k g _ (by decide) hr]

theorem ringInv_congr (L C k : Nat) (g g2 : Globals) (h : RingInv L C k g)
    (hb : g2.line_buffers = g.line_buffers) (hi : g2.line_index = g.line_index) :
    RingInv L C k g2 := by
  unfold RingInv at h ⊢
  rw [hb, hi]; exact h

theorem set_led_color_line_buffers (g : Globals) (led color : Nat) :
    (set_led_color g led color).line_buffers = g.line_buffers := rfl

theorem set_led_color_line_index (g : Globals) (led color : Nat) :
    (set_led_color g led color).line_index = g.line_index := rfl

theorem set_led_color_input_buffer (g : Globals) (led color : Nat) :
    (set_led_color g led color).input_buffer = g.input_buffer := rfl

theorem wallpaper_frame_only (g : Globals) :
    (wallpaper g).1.line_buffers = g.line_buffers
    ∧ (wallpaper g).1.line_index = g.line_index
    ∧ (wallpaper g).1.input_buffer = g.input_buffer := by
  unfold wallpaper
  simp only [set_led_color_line_buffers, set_led_color_line_index, set_led_color_input_buffer,
    and_self]

theorem submit_inv (g : Globals) (h : LoopInv g) : LoopInv (submit g).1 := by
  obtain ⟨he, k, hr⟩ := h
  have hinv := add_line_inv num_lines num_chars k g g.input_buffer (by decide) hr
  rw [add_line_eq num_lines num_chars k g _ (by decide) hr] at hinv
  rw [submit_eq g k hr he]
  exact ⟨edInv_zero, k + 1, ringInv_congr _ _ _ _ _ hinv rfl rfl⟩

theorem keyboard_edit_loopInv (g : Globals) (ascii : Nat) (h : LoopInv g) :
    LoopInv (keyboard_edit g ascii) := by
  obtain ⟨he, k, hr⟩ := h
  have hf := keyboard_edit_ring g ascii
  exact ⟨keyboard_edit_inv g ascii he, k, ringInv_congr _ _ _ _ _ hr hf.1 hf.2.1⟩

theorem loopInv_congr (g g2 : Globals) (h : LoopInv g)
    (hb : g2.line_buffers = g.line_buffers) (hi : g2.line_index = g.line_index)
    (he : g2.input_buffer = g.input_buffer) : LoopInv g2 := by
  obtain ⟨h1, k, hr⟩ := h
  exact ⟨by rw [he]; exact h1, k, ringInv_congr _ _ _ _ _ hr hb hi⟩

theorem navigation_event_inv (g : Globals) (key : NavKey) (state : Bool) (h : LoopInv g) :
    LoopInv (navigation_event g key state).1 := by
  unfold navigation_event
  cases state with
  | false => exact h
  | true =>
    simp only [if_true]
    have h1 : LoopInv (if key = NavKey.RETURN then submit g else (g, [])).1 := by
      split
      · exact submit_inv g h
      · exact h
    split
    · have hw := wallpaper_frame_only (if key = NavKey.RETURN then submit g else (g, [])).1
      exact loopInv_congr _ _ h1 hw.1 hw.2.1 hw.2.2
    · exact h1

theorem handle_event_inv (g : Globals) (ev : Event) (h : LoopInv g) :
    LoopInv (handle_event g ev).1 := by
  cases ev with
  | KEYBOARD ascii => exact keyboard_edit_loopInv g ascii h
  | NAVIGATION key state => exact navigation_event_inv g key state h
  | OTHER => exact h

theorem add_line_loopInv (g : Globals) (text : List Nat) (h : LoopInv g) :
    LoopInv (add_line num_lines num_chars g text).1 := by
  obtain ⟨he, k, hr⟩ := h
  exact ⟨he, k + 1, add_line_inv num_lines num_chars k g text (by decide) hr⟩

theorem loop_iter_inv (g : Globals) (t : Tick) (h : LoopInv g) : LoopInv (loop_iter g t).1 := by
  unfold loop_iter
  simp only
  by_cases h1 : read_length t.buffered > 0
  · rw [if_pos h1]
    by_cases h2 : t.read_ret < 0
    · rw [if_pos h2]; exact h
    · rw [if_neg h2]
      exact add_line_loopInv g
        (uart_fill (List.replicate RADIO_BUFFER 0) t.read_data (read_length t.buffered).toNat) h
  · rw [if_neg h1]
    cases t.event with
    | some ev => exact handle_event_inv g ev h
    | none => exact h

theorem boot_inv : LoopInv boot :=
  ⟨edInv_zero, 0, init_inv num_lines num_chars⟩

theorem foldl_loop_inv (ticks : List Tick) :
    ∀ g, LoopInv g → LoopInv (ticks.foldl (fun g t => (loop_iter g t).1) g) := by
  induction ticks with
  | nil => intro g h; exact h
  | cons t ts ih => intro g h; exact ih _ (loop_iter_inv g t h)

theorem loop_state_inv (ticks : List Tick) : LoopInv (loop_state ticks) :=
  foldl_loop_inv ticks boot boot_inv

theorem loop_iter_idle_event (g : Globals) (t : Tick) (ev : Event) (hb : t.buffered = 0)
    (he : t.event = some ev) :
    loop_iter g t = ((handle_event g ev).1, Effect.xQueueReceive :: (handle_event g ev).2) := by
  have h0 : ¬ read_length 0 > 0 := by decide
  unfold loop_iter
  simp only [hb, he, if_neg h0]

theorem keyboard_edit_full (g : Globals) (ascii : Nat) (h8 : ascii ≠ 8)
    (hfull : ¬ strlen g.input_buffer < num_chars - 1) : keyboard_edit g ascii = g := by
  unfold keyboard_edit
  rw [if_neg h8]
  split
  · rfl
  · simp only; rw [if_neg hfull]

theorem not_mem_cstr_of_not_mem (b : List Nat) (x : Nat) (h : x ∉ b) : x ∉ cstr b :=
  fun hm => h ((List.takeWhile_sublist _).subset hm)

theorem newest_line_congr (L : Nat) (g g2 : Globals)
    (hb : g2.line_buffers = g.line_buffers) (hi : g2.line_index = g.line_index) :
    newest_line L g2 = newest_line L g := by
  unfold newest_line; rw [hb, hi]

theorem return_pressed_eq (g : Globals) :
    navigation_event g NavKey.RETURN true = ((submit g).1, (submit g).2 ++ [blit (submit g).1]) := by
  unfold navigation_event
  simp

theorem read_length_eq_min (n : Nat) (hn : n < 2 ^ 31) :
    read_length n = ((min n (RADIO_BUFFER - 1) : Nat) : Int) := by
  have h1 : n % 2 ^ 32 = n := Nat.mod_eq_of_lt (by omega)
  unfold read_length int_of_size_t
  simp only [h1, if_pos hn, RADIO_BUFFER]
  split
  · rename_i h; omega
  · rename_i h; omega

theorem read_length_le (n : Nat) : read_length n ≤ 255 := by
  unfold read_length
  simp only [RADIO_BUFFER]
  split
  · omega
  · rename_i h; omega

theorem read_length_pos (n : Nat) (h0 : 0 < n) (hn : n < 2 ^ 31) : read_length n > 0 := by
  rw [read_length_eq_min n hn]
  simp only [RADIO_BUFFER]
  omega

theorem loop_iter_transport (g : Globals) (t : Tick) (h : read_length t.buffered > 0) :
    loop_iter g t
      = if t.read_ret < 0 then
          (g, [Effect.uart_read_bytes (read_length t.buffered), Effect.log_error])
        else
          ((add_line num_lines num_chars g (rx_data t)).1,
            [Effect.uart_read_bytes (read_length t.buffered), Effect.printf (cstr (rx_data t)),
              blit (add_line num_lines num_chars g (rx_data t)).1]) := by
  unfold loop_iter rx_data
  simp only [if_pos h]

theorem loop_iter_idle (g : Globals) (t : Tick) (h : ¬ read_length t.buffered > 0) :
    loop_iter g t
      = match t.event with
        | some event => ((handle_event g event).1, Effect.xQueueReceive :: (handle_event g event).2)
        | none => (g, [Effect.xQueueReceive]) := by
  unfold loop_iter
  simp only [if_neg h]

theorem strlen_append_zero_le (a r : List Nat) : strlen (a ++ 0 :: r) ≤ a.length := by
  induction a with
  | nil => simp [strlen, cstr_cons_zero]
  | cons c p ih =>
    by_cases hc : c = 0
    · subst hc; simp [strlen, cstr_cons_zero]
    · have : strlen (c :: p ++ 0 :: r) = strlen (p ++ 0 :: r) + 1 := by
        simp [strlen, cstr_cons_ne _ _ hc]
      rw [this, List.length_cons]; omega

theorem rx_data_eq (t : Tick) :
    rx_data t = t.read_data.take (read_length t.buffered).toNat
      ++ List.replicate
          (RADIO_BUFFER - (t.read_data.take (read_length t.buffered).toNat).length) 0 := by
  have hle : (t.read_data.take (read_length t.buffered).toNat).length ≤ 255 := by
    have := read_length_le t.buffered
    rw [List.length_take]; omega
  unfold rx_data uart_fill
  rw [List.length_replicate, List.take_of_length_le (by simp only [RADIO_BUFFER]; omega),
    List.drop_replicate]

theorem rx_data_terminated (t : Tick) :
    (rx_data t).length = RADIO_BUFFER
    ∧ (rx_data t).getD (RADIO_BUFFER - 1) 1 = 0
    ∧ strlen (rx_data t) ≤ RADIO_BUFFER - 1 := by
  have hle : (t.read_data.take (read_length t.buffered).toNat).length ≤ 255 := by
    have := read_length_le t.buffered
    rw [List.length_take]; omega
  rw [rx_data_eq]
  generalize t.read_data.take (read_length t.buffered).toNat = a at hle
  simp only [RADIO_BUFFER] at *
  refine ⟨by simp; omega, ?_, ?_⟩
  · rw [List.getD_append_right _ _ _ _ (by omega), List.getD_eq_getElem _ _ (by simp; omega)]
    simp
  · obtain ⟨m, hm⟩ : ∃ m, 256 - a.length = m + 1 := ⟨255 - a.length, by omega⟩
    rw [hm, List.replicate_succ]
    have := strlen_append_zero_le a (List.replicate m 0)
    omega

theorem set_led_color_led_buffer (g : Globals) (led color : Nat) :
    (set_led_color g led color).led_buffer
      = ((g.led_buffer.set (led * 3 + 0) (((color >>> 8) &&& 0xFF) % 256)).set
          (led * 3 + 1) (((color >>> 16) &&& 0xFF) % 256)).set
          (led * 3 + 2) (((color >>> 0) &&& 0xFF) % 256) := rfl

theorem set_led_color_bytes (g : Globals) (led color G R B : Nat)
    (hG : ((color >>> 8) &&& 0xFF) % 256 = G) (hR : ((color >>> 16) &&& 0xFF) % 256 = R)
    (hB : ((color >>> 0) &&& 0xFF) % 256 = B) :
    (set_led_color g led color).led_buffer
      = ((g.led_buffer.set (led * 3 + 0) G).set (led * 3 + 1) R).set (led * 3 + 2) B := by
  rw [set_led_color_led_buffer, hG, hR, hB]

theorem list_of_length_18 (l : List Nat) (h : l.length = 6 * 3) :
    ∃ a0 a1 a2 a3 a4 a5 a6 a7 a8 a9 a10 a11 a12 a13 a14 a15 a16 a17 : Nat,
      l = [a0, a1, a2, a3, a4, a5, a6, a7, a8, a9, a10, a11, a12, a13, a14, a15, a16, a17] := by
  rcases l with _ | ⟨a0, _ | ⟨a1, _ | ⟨a2, _ | ⟨a3, _ | ⟨a4, _ | ⟨a5, _ | ⟨a6, _ | ⟨a7, _ | ⟨a8, _ | ⟨a9, _ | ⟨a10, _ | ⟨a11, _ | ⟨a12, _ | ⟨a13, _ | ⟨a14, _ | ⟨a15, _ | ⟨a16, _ | ⟨a17, _ | _⟩⟩⟩⟩⟩⟩⟩⟩⟩⟩⟩⟩⟩⟩⟩⟩⟩⟩
  all_goals first
    | exact ⟨_, _, _, _, _, _, _, _, _, _, _, _, _, _, _, _, _, _, rfl⟩
    | (simp at h)

theorem wallpaper_led_buffer (g : Globals) (h : g.led_buffer.length = 6 * 3) :
    (wallpaper g).1.led_buffer
      = [3, 252, 3, 111, 252, 3, 252, 244, 3, 3, 252, 227, 3, 3, 252, 252, 3, 3] := by
  obtain ⟨a0, a1, a2, a3, a4, a5, a6, a7, a8, a9, a10, a11, a12, a13, a14, a15, a16, a17, hl⟩ := list_of_length_18 g.led_buffer h
  unfold wallpaper
  simp only []
  rw [set_led_color_bytes _ 5 0x03FC03 252 3 3 (by decide) (by decide) (by decide)]
  rw [set_led_color_bytes _ 4 0x0303FC 3 3 252 (by decide) (by decide) (by decide)]
  rw [set_led_color_bytes _ 3 0xFC03E3 3 252 227 (by decide) (by decide) (by decide)]
  rw [set_led_color_bytes _ 2 0xF4FC03 252 244 3 (by decide) (by decide) (by decide)]
  rw [set_led_color_bytes _ 1 0xFC6F03 111 252 3 (by decide) (by decide) (by decide)]
  rw [set_led_color_bytes _ 0 0xFC0303 3 252 3 (by decide) (by decide) (by decide)]
  rw [hl]
  simp

theorem getD_set_eq (l : List Nat) (i a d : Nat) (h : i < l.length) :
    (l.set i a).getD i d = a := by
  rw [List.getD_eq_getElem _ _ (by rw [List.length_set]; exact h), List.getElem_set_self]

theorem getD_set_ne (l : List Nat) (i j a d : Nat) (h : i ≠ j) :
    (l.set i a).getD j d = l.getD j d := by
  rw [List.getD_eq_getElem?_getD, List.getD_eq_getElem?_getD, List.getElem?_set_ne h]

theorem mask_byte (x : Nat) : (x &&& 0xFF) % 256 = x % 256 := by
  have h : x &&& 0xFF = x % 256 := Nat.and_pow_two_sub_one_eq_mod x 8
  rw [h, Nat.mod_mod]

theorem rgb_bytes (r gg b : Nat) (hr : r < 256) (hg : gg < 256) (hb : b < 256) :
    ((r * 65536 + gg * 256 + b) >>> 8) % 256 = gg
    ∧ ((r * 65536 + gg * 256 + b) >>> 16) % 256 = r
    ∧ ((r * 65536 + gg * 256 + b) >>> 0) % 256 = b := by
  simp only [Nat.shiftRight_eq_div_pow]
  norm_num
  omega

theorem idxk_add_period (L k : Nat) : idxk L (k + L) = idxk L k := by
  unfold idxk
  apply List.map_congr_left
  intro i _
  rw [← Nat.add_assoc, Nat.add_mod_right]

theorem ring_run_snoc (L C : Nat) (texts : List (List Nat)) (t : List Nat) :
    ring_run L C (texts ++ [t]) = (add_line L C (ring_run L C texts) t).1 := by
  unfold ring_run
  rw [append_all_append]
  rfl

theorem head_refines_fold (L C : Nat) (hL : 0 < L) (ts : List (List Nat)) :
    ∀ (k : Nat) (g : Globals) (r : HeadRing), RingInv L C k g →
      r.storage = g.line_buffers → r.head = k % L →
      (ts.foldl (head_append L C) r).storage = (append_all L C g ts).line_buffers
      ∧ (ts.foldl (head_append L C) r).head = (k + ts.length) % L := by
  induction ts with
  | nil => intro k g r _ hs hh; exact ⟨hs, hh⟩
  | cons t ts ih =>
    intro k g r hinv hs hh
    have hstep := add_line_eq L C k g t hL hinv
    have h1 := ih (k + 1) (add_line L C g t).1 (head_append L C r t)
      (add_line_inv L C k g t hL hinv)
      (by rw [hstep]; simp only [head_append]; rw [hs, hh])
      (by simp only [head_append]; rw [hh, Nat.mod_add_mod])
    rw [List.foldl_cons, append_all_cons, List.length_cons,
      show k + (ts.length + 1) = k + 1 + ts.length by omega]
    exact h1

theorem head_run_refines (L C : Nat) (hL : 0 < L) (texts : List (List Nat)) :
    (head_run L C texts).storage = (ring_run L C texts).line_buffers
    ∧ (head_run L C texts).head = texts.length % L := by
  have h := head_refines_fold L C hL texts 0 (init L (zeroed L C)) (head_init L C)
    (init_inv L C) rfl (by simp [head_init])
  rw [Nat.zero_add] at h
  exact h

theorem head_order_eq_idxk (L k : Nat) (r : HeadRing) (hh : r.head = k % L) :
    head_order L r = idxk L k := by
  unfold head_order idxk
  apply List.map_congr_left
  intro i _
  rw [hh, Nat.mod_add_mod, Nat.add_comm]

theorem head_snapshot_eq (L C k : Nat) (g : Globals) (r : HeadRing) (hinv : RingInv L C k g)
    (hs : r.storage = g.line_buffers) (hh : r.head = k % L) :
    head_snapshot L r = snapshot L g := by
  unfold head_snapshot snapshot
  apply List.map_congr_left
  intro i hi
  rw [hinv.1, idxk_getD L k i (List.mem_range.mp hi), hs, hh, Nat.mod_add_mod, Nat.add_comm]

theorem stored_row_padding (C : Nat) (text : List Nat) (i : Nat) (hs : strlen text ≤ i)
    (hi : i < C) : (stored_row C text).getD i 1 = 0 := by
  have hlt : strlen text < C := by omega
  have hl : (normalize (cstr text)).length = strlen text := by
    rw [normalize_length]; rfl
  rw [stored_row_short C text hlt, List.getD_append_right _ _ _ _ (by rw [hl]; exact hs), hl,
    List.getD_eq_getElem _ _ (by rw [List.length_replicate]; omega)]
  simp

theorem rows_congr (g g2 : Globals) (hb : g2.line_buffers = g.line_buffers)
    (hi : g2.line_index = g.line_index) : rows g2 = rows g := by
  unfold rows; rw [hb, hi]

theorem snapshot_congr (L : Nat) (g g2 : Globals) (hb : g2.line_buffers = g.line_buffers)
    (hi : g2.line_index = g.line_index) : snapshot L g2 = snapshot L g := by
  unfold snapshot; rw [hb, hi]

theorem stored_row_clean (C : Nat) (b : List Nat) (hs : strlen b < C) (h13 : 13 ∉ b)
    (h10 : 10 ∉ b) : stored_row C b = cstr b ++ List.replicate (C - strlen b) 0 := by
  rw [stored_row_short C b hs, normalize_of_clean _ (not_mem_cstr_of_not_mem _ _ h13)
    (not_mem_cstr_of_not_mem _ _ h10)]

theorem snapshot_add_line_terminated (L C k : Nat) (g : Globals) (text : List Nat)
    (hL : 0 < L) (hinv : RingInv L C k g) (hterm : ∀ row ∈ g.line_buffers, 0 ∈ row)
    (ht : strlen text < C) :
    snapshot L (add_line L C g text).1 = (snapshot L g).tail ++ [normalize (cstr text)] := by
  have hinv2 := add_line_inv L C k g text hL hinv
  have hterm2 : ∀ row ∈ (add_line L C g text).1.line_buffers, 0 ∈ row := by
    rw [add_line_eq L C k g text hL hinv]
    intro row hrow
    simp only at hrow
    rcases List.mem_or_eq_of_mem_set hrow with h | h
    · exact hterm row h
    · rw [h]; exact stored_row_terminated C text ht
  rw [snapshot_eq_rows L C (k + 1) _ hinv2 hterm2, snapshot_eq_rows L C k g hinv hterm,
    rows_add_line L C k g text hL hinv, List.map_append, List.map_tail, List.map_singleton,
    cstr_stored_row C text ht]

/-! ## The claims -/

/-- C1. Sliding window: after `init` on zeroed globals and `add_line` on each of the
buffers `texts` in order, each holding a string shorter than `C` characters without
`'\r'` and `'\n'`, the lines that `blit` shows are the last `L` entries of the list made
of `L` empty strings followed by the strings of `texts`, oldest first. The program is
the instance `L = num_lines`, `C = num_chars`; the scenario of the specification is the
instance `L = 3`, `C = 5`. -/
theorem C1_sliding_window (L C : Nat) (hL : 0 < L) (hC : 0 < C) (texts : List (List Nat))
    (h : ∀ t ∈ texts, strlen t < C ∧ 13 ∉ cstr t ∧ 10 ∉ cstr t) :
    snapshot L (ring_run L C texts) = lastN L (List.replicate L [] ++ texts.map cstr) := by
  have hinv := ring_run_inv L C hL texts
  have hrows : rows (ring_run L C texts)
      = lastN L (List.replicate L (List.replicate C 0) ++ texts.map (stored_row C)) := by
    unfold ring_run
    rw [rows_append_all L C hL texts 0 _ (init_inv L C), rows_init]
  have hterm : ∀ row ∈ rows (ring_run L C texts), 0 ∈ row := by
    intro row hrow
    rw [hrows] at hrow
    have hrow2 := List.mem_of_mem_drop hrow
    rcases List.mem_append.mp hrow2 with hz | ht
    · rw [List.eq_of_mem_replicate hz, List.mem_replicate]
      exact ⟨by omega, rfl⟩
    · rcases List.mem_map.mp ht with ⟨t, htm, e⟩
      rw [← e]
      exact stored_row_terminated C t (h t htm).1
  rw [snapshot_of_rows_terminated L C _ _ hinv hterm, hrows, ← lastN_map, List.map_append,
    List.map_replicate, cstr_replicate_zero, List.map_map]
  congr 2
  apply List.map_congr_left
  intro t ht
  simp only [Function.comp]
  rw [cstr_stored_row C t (h t ht).1, normalize_of_clean _ (h t ht).2.1 (h t ht).2.2]

/-- C1, at the scenario of the specification (`L = 3`, `C = 5`: "ab", "cd", "ef", then
"gh") and at the program's sizes with nothing appended (17 blank lines). -/
theorem C1_sliding_window_witness :
    ((0 < 3 ∧ 0 < 5 ∧ ∀ t ∈ [bytes "ab", bytes "cd", bytes "ef", bytes "gh"],
        strlen t < 5 ∧ 13 ∉ cstr t ∧ 10 ∉ cstr t)
      ∧ snapshot 3 (ring_run 3 5 [bytes "ab", bytes "cd", bytes "ef", bytes "gh"])
          = lastN 3 (List.replicate 3 []
              ++ [bytes "ab", bytes "cd", bytes "ef", bytes "gh"].map cstr)
      ∧ lastN 3 (List.replicate 3 []
              ++ [bytes "ab", bytes "cd", bytes "ef", bytes "gh"].map cstr)
          = [bytes "cd", bytes "ef", bytes "gh"])
    ∧ (snapshot 3 (ring_run 3 5 [bytes "ab", bytes "cd", bytes "ef"])
          = lastN 3 (List.replicate 3 [] ++ [bytes "ab", bytes "cd", bytes "ef"].map cstr)
      ∧ lastN 3 (List.replicate 3 [] ++ [bytes "ab", bytes "cd", bytes "ef"].map cstr)
          = [bytes "ab", bytes "cd", bytes "ef"])
    ∧ (snapshot num_lines (ring_run num_lines num_chars [])
          = lastN num_lines (List.replicate num_lines [] ++ [].map cstr)
      ∧ lastN num_lines (List.replicate num_lines [] ++ [].map cstr)
          = List.replicate 17 []) :=
  ⟨⟨⟨by decide, by decide, by decide⟩,
      C1_sliding_window 3 5 (by decide) (by decide) _ (by decide), by decide⟩,
    ⟨C1_sliding_window 3 5 (by decide) (by decide) _ (by decide), by decide⟩,
    ⟨C1_sliding_window num_lines num_chars (by decide) (by decide) [] (by decide), by decide⟩⟩

/-- C2. The code at a line of `num_chars` = 60 characters: after the boot state, a loop
iteration that reads sixty bytes 'a' from the transport fills all sixty bytes of the
newest slot with 'a', so the slot holds no terminator and the newest line read by `blit`
has 60 characters, not 59; after a further iteration that reads "b" the line above the
newest one is read as the sixty 'a' followed by the 'b' of the next slot. -/
theorem C2_sixty_byte_line_unterminated :
    (loop_iter boot (rx_tick (List.replicate 60 97))).1.line_buffers.getD
        ((loop_iter boot (rx_tick (List.replicate 60 97))).1.line_index.getD (num_lines - 1) 0) []
      = List.replicate 60 97
    ∧ 0 ∉ (loop_iter boot (rx_tick (List.replicate 60 97))).1.line_buffers.getD
        ((loop_iter boot (rx_tick (List.replicate 60 97))).1.line_index.getD (num_lines - 1) 0) []
    ∧ (snapshot num_lines (loop_iter boot (rx_tick (List.replicate 60 97))).1).getLast?
      = some (List.replicate 60 97)
    ∧ ¬ (newest_line num_lines (loop_iter boot (rx_tick (List.replicate 60 97))).1).length
        ≤ num_chars - 1
    ∧ newest_line num_lines (loop_iter boot (rx_tick (List.replicate 60 97))).1
      ≠ (normalize (cstr (List.replicate 60 97))).take (num_chars - 1)
    ∧ (snapshot num_lines (loop_state [rx_tick (List.replicate 60 97), rx_tick [98]])).drop 15
      = [List.replicate 60 97 ++ [98], [98]] := by
  decide

/-- C3. CR/LF normalisation in `add_line`, in the ring after `init` and any `add_line`
calls. For every buffer `text`, each of the first `num_chars` characters of its string is
stored in the newest slot at its position, as a space where it is `'\r'` or `'\n'` and
unchanged otherwise. When the string is shorter than `num_chars`, the newest line (the
last entry of the snapshot) has the length of the input string and is that string with a
space at every position of a `'\r'` or `'\n'`; the caller's buffer is changed the same
way. -/
theorem C3_crlf_normalised (texts : List (List Nat)) (text : List Nat) :
    (∀ i, i < strlen text → i < num_chars →
      ((add_line num_lines num_chars (ring_run num_lines num_chars texts) text).1.line_buffers.getD
          ((add_line num_lines num_chars (ring_run num_lines num_chars texts) text).1.line_index.getD
            (num_lines - 1) 0) []).getD i 0
        = if text.getD i 0 = 13 ∨ text.getD i 0 = 10 then 32 else text.getD i 0)
    ∧ (strlen text < num_chars →
      (snapshot num_lines
          (add_line num_lines num_chars (ring_run num_lines num_chars texts) text).1).getLast?
        = some (newest_line num_lines
            (add_line num_lines num_chars (ring_run num_lines num_chars texts) text).1)
      ∧ (newest_line num_lines
          (add_line num_lines num_chars (ring_run num_lines num_chars texts) text).1).length
          = strlen text
      ∧ (∀ i, i < strlen text →
          (newest_line num_lines
            (add_line num_lines num_chars (ring_run num_lines num_chars texts) text).1).getD i 0
            = if text.getD i 0 = 13 ∨ text.getD i 0 = 10 then 32 else text.getD i 0)
      ∧ cstr (add_line num_lines num_chars (ring_run num_lines num_chars texts) text).2
          = newest_line num_lines
              (add_line num_lines num_chars (ring_run num_lines num_chars texts) text).1) := by
  have hinv := ring_run_inv num_lines num_chars (by decide) texts
  refine ⟨?_, ?_⟩
  · intro i hi hiC
    rw [newest_row_add_line num_lines num_chars _ _ text (by decide) hinv]
    exact stored_row_getD num_chars text i hi hiC
  · intro h
    have hn := newest_line_add_line num_lines num_chars _ _ text (by decide) hinv h
    refine ⟨snapshot_getLast _ _ (by decide), ?_, ?_, ?_⟩
    · rw [hn, normalize_length]; rfl
    · intro i hi
      rw [hn, normalize_getD _ i hi, cstr_getD text i hi]
    · rw [hn]
      exact cstr_crlf_loop text

/-- C3, at the example of the specification: `add_line("hi\r\nthere")` on the ring after
`init` stores "hi  there" (two spaces). -/
theorem C3_crlf_normalised_witness :
    strlen (bytes "hi\r\nthere") < num_chars
    ∧ (newest_line num_lines
          (add_line num_lines num_chars (ring_run num_lines num_chars [])
            (bytes "hi\r\nthere")).1).length
        = strlen (bytes "hi\r\nthere")
    ∧ newest_line num_lines
        (add_line num_lines num_chars (ring_run num_lines num_chars []) (bytes "hi\r\nthere")).1
        = bytes "hi  there" :=
  ⟨by decide, ((C3_crlf_normalised [] (bytes "hi\r\nthere")).2 (by decide)).2.1, by decide⟩

/-- C4. Permutation invariant: after `init` and any number of `add_line` calls with any
arguments, `line_index` is a permutation of `0 .. num_lines - 1`: it has `num_lines`
entries, each below `num_lines` (so each dereference `line_buffers[line_index[i]]` is in
bounds), and no two are equal. -/
theorem C4_line_index_permutation (texts : List (List Nat)) :
    (ring_run num_lines num_chars texts).line_index.Perm (List.range num_lines)
    ∧ (ring_run num_lines num_chars texts).line_index.length = num_lines
    ∧ (∀ x ∈ (ring_run num_lines num_chars texts).line_index,
        x < num_lines ∧ x < (ring_run num_lines num_chars texts).line_buffers.length)
    ∧ (ring_run num_lines num_chars texts).line_index.Nodup := by
  obtain ⟨hidx, hlen, _⟩ := ring_run_inv num_lines num_chars (by decide) texts
  have hp : (ring_run num_lines num_chars texts).line_index.Perm (List.range num_lines) := by
    rw [hidx]; exact idxk_perm _ _
  refine ⟨hp, ?_, ?_, ?_⟩
  · rw [hp.length_eq, List.length_range]
  · intro x hx
    have := List.mem_range.mp (hp.subset hx)
    exact ⟨this, by rw [hlen]; exact this⟩
  · exact hp.nodup_iff.mpr (List.nodup_range _)

/-- C5. Eviction: in the ring after `init` and any `add_line` calls, appending
`num_lines + 1` lines in succession, each shorter than `num_chars` characters and pairwise
distinct as stored, leaves the first of them out of the snapshot, and the snapshot is
exactly the remaining `num_lines` of them as stored, in order. -/
theorem C5_eviction (prior : List (List Nat)) (first : List Nat) (rest : List (List Nat))
    (hlen : rest.length = num_lines)
    (hshort : ∀ t ∈ first :: rest, strlen t < num_chars)
    (hdist : ((first :: rest).map (fun t => normalize (cstr t))).Nodup) :
    snapshot num_lines
        (append_all num_lines num_chars (ring_run num_lines num_chars prior) (first :: rest))
      = rest.map (fun t => normalize (cstr t))
    ∧ normalize (cstr first) ∉ snapshot num_lines
        (append_all num_lines num_chars (ring_run num_lines num_chars prior) (first :: rest)) := by
  have hinv := ring_run_inv num_lines num_chars (by decide) prior
  have hs := snapshot_after_full_turn num_lines num_chars _ _ (by decide) hinv first rest hlen
    (fun t ht => hshort t (List.mem_cons_of_mem _ ht))
  refine ⟨hs, ?_⟩
  rw [hs]
  rw [List.map_cons, List.nodup_cons] at hdist
  exact hdist.1

/-- C5, at the ring that already holds one line of sixty characters, for the eighteen
lines "a" to "r". -/
theorem C5_eviction_witness :
    ((List.range 17).map (fun i => [98 + i])).length = num_lines
    ∧ (∀ t ∈ [97] :: (List.range 17).map (fun i => [98 + i]), strlen t < num_chars)
    ∧ (([97] :: (List.range 17).map (fun i => [98 + i])).map
        (fun t => normalize (cstr t))).Nodup
    ∧ snapshot num_lines
        (append_all num_lines num_chars (ring_run num_lines num_chars [List.replicate 60 120])
          ([97] :: (List.range 17).map (fun i => [98 + i])))
      = ((List.range 17).map (fun i => [98 + i])).map (fun t => normalize (cstr t))
    ∧ normalize (cstr [97]) ∉ snapshot num_lines
        (append_all num_lines num_chars (ring_run num_lines num_chars [List.replicate 60 120])
          ([97] :: (List.range 17).map (fun i => [98 + i]))) :=
  ⟨by decide, by decide, by decide,
    C5_eviction [List.replicate 60 120] [97] ((List.range 17).map (fun i => [98 + i]))
      (by decide) (by decide) (by decide)⟩

/-- C6. Editor capacity: in every state of the main loop `input_buffer` has `num_chars`
bytes, holds a terminator among them and its text has at most `num_chars - 1` characters.
A keyboard event with a character other than `'\b'`, `'\r'` and `'\n'` leaves all globals
unchanged when the text already has `num_chars - 1` characters, and when the text is
shorter and the character is not NUL the text becomes the old text followed by that
character, one character longer. -/
theorem C6_editor_capacity (ticks : List Tick) (ascii : Nat)
    (hpush : ascii ≠ 8 ∧ ascii ≠ 13 ∧ ascii ≠ 10) :
    ((loop_state ticks).input_buffer.length = num_chars
      ∧ 0 ∈ (loop_state ticks).input_buffer
      ∧ strlen (loop_state ticks).input_buffer ≤ num_chars - 1)
    ∧ (strlen (loop_state ticks).input_buffer = num_chars - 1 →
        (loop_iter (loop_state ticks) (event_tick (Event.KEYBOARD ascii))).1 = loop_state ticks)
    ∧ (strlen (loop_state ticks).input_buffer < num_chars - 1 → ascii ≠ 0 →
        cstr (loop_iter (loop_state ticks) (event_tick (Event.KEYBOARD ascii))).1.input_buffer
            = cstr (loop_state ticks).input_buffer ++ [ascii]
          ∧ strlen (loop_iter (loop_state ticks)
              (event_tick (Event.KEYBOARD ascii))).1.input_buffer
            = strlen (loop_state ticks).input_buffer + 1) := by
  obtain ⟨he, _⟩ := loop_state_inv ticks
  have hnc : num_chars = 60 := rfl
  have hstep : (loop_iter (loop_state ticks) (event_tick (Event.KEYBOARD ascii))).1
      = keyboard_edit (loop_state ticks) ascii := by
    rw [loop_iter_idle_event _ _ (Event.KEYBOARD ascii) rfl rfl]; rfl
  have htext := keyboard_edit_text (loop_state ticks) ascii he
  rw [if_neg hpush.1, if_neg (fun h => h.elim hpush.2.1 hpush.2.2)] at htext
  refine ⟨⟨he.1, ?_, ?_⟩, ?_, ?_⟩
  · exact (strlen_lt_iff_mem _).mp (by rw [he.1]; exact he.2.1)
  · have := he.2.1; omega
  · intro hfull
    rw [hstep]
    exact keyboard_edit_full _ _ hpush.1 (by omega)
  · intro hroom h0
    rw [if_pos ⟨hroom, h0⟩] at htext
    rw [hstep]
    refine ⟨htext, ?_⟩
    unfold strlen
    rw [htext, List.length_append, List.length_singleton]

/-- C6, for the character 'b' after fifty-nine events 'a' (the editor is full and stays
as it is) and after three events 'a' (the text becomes "aaab"). -/
theorem C6_editor_capacity_witness :
    ((98 ≠ 8 ∧ 98 ≠ 13 ∧ 98 ≠ 10)
      ∧ strlen (loop_state (typed 59 97)).input_buffer = num_chars - 1
      ∧ (loop_iter (loop_state (typed 59 97)) (event_tick (Event.KEYBOARD 98))).1
          = loop_state (typed 59 97))
    ∧ (strlen (loop_state (typed 3 97)).input_buffer < num_chars - 1
      ∧ cstr (loop_iter (loop_state (typed 3 97)) (event_tick (Event.KEYBOARD 98))).1.input_buffer
          = cstr (loop_state (typed 3 97)).input_buffer ++ [98]
      ∧ cstr (loop_iter (loop_state (typed 3 97)) (event_tick (Event.KEYBOARD 98))).1.input_buffer
          = [97, 97, 97, 98]) :=
  ⟨⟨by decide, by decide,
      (C6_editor_capacity (typed 59 97) 98 (by decide)).2.1 (by decide)⟩,
    ⟨by decide,
      ((C6_editor_capacity (typed 3 97) 98 (by decide)).2.2 (by decide) (by decide)).1,
      by decide⟩⟩

/-- C7. Backspace: for every state of the globals, a keyboard event with `'\b'` leaves the
editor text equal to the old text without its last character (the empty text stays
empty), changes nothing at all when the text is empty, keeps the size of `input_buffer`
and leaves the ring alone. -/
theorem C7_backspace (g : Globals) :
    cstr (loop_iter g (event_tick (Event.KEYBOARD 8))).1.input_buffer
        = (cstr g.input_buffer).dropLast
    ∧ (cstr g.input_buffer = [] → (loop_iter g (event_tick (Event.KEYBOARD 8))).1 = g)
    ∧ (loop_iter g (event_tick (Event.KEYBOARD 8))).1.input_buffer.length
        = g.input_buffer.length
    ∧ (loop_iter g (event_tick (Event.KEYBOARD 8))).1.line_buffers = g.line_buffers
    ∧ (loop_iter g (event_tick (Event.KEYBOARD 8))).1.line_index = g.line_index := by
  have hstep : (loop_iter g (event_tick (Event.KEYBOARD 8))).1 = keyboard_edit g 8 := by
    rw [loop_iter_idle_event _ _ (Event.KEYBOARD 8) rfl rfl]; rfl
  have hf := keyboard_edit_ring g 8
  rw [hstep]
  refine ⟨?_, ?_, ?_, hf.1, hf.2.1⟩
  · unfold keyboard_edit
    rw [if_pos rfl]
    simp only
    by_cases hpos : strlen g.input_buffer > 0
    · rw [if_pos hpos]; exact cstr_backspace _ hpos
    · rw [if_neg hpos]
      have : cstr g.input_buffer = [] := by
        apply List.eq_nil_of_length_eq_zero; unfold strlen at hpos; omega
      rw [this]; rfl
  · intro hempty
    unfold keyboard_edit
    rw [if_pos rfl]
    simp only
    rw [if_neg (by unfold strlen; rw [hempty]; simp)]
  · unfold keyboard_edit
    rw [if_pos rfl]
    simp only
    split
    · simp
    · rfl

/-- C7, at the scenario of the specification: from the empty editor the events 'h', 'i'
give "hi", a backspace gives "h", and Return then sends "h\r\n", shows "h" as newest line
and leaves the editor empty; a backspace on the empty editor of the boot state changes
nothing. -/
theorem C7_backspace_witness :
    (cstr boot.input_buffer = []
      ∧ (loop_iter boot (event_tick (Event.KEYBOARD 8))).1 = boot)
    ∧ cstr (loop_state [event_tick (Event.KEYBOARD 104),
        event_tick (Event.KEYBOARD 105)]).input_buffer = bytes "hi"
    ∧ cstr (loop_state [event_tick (Event.KEYBOARD 104), event_tick (Event.KEYBOARD 105),
        event_tick (Event.KEYBOARD 8)]).input_buffer = bytes "h"
    ∧ (loop_iter (loop_state [event_tick (Event.KEYBOARD 104), event_tick (Event.KEYBOARD 105),
        event_tick (Event.KEYBOARD 8)]) (event_tick (Event.NAVIGATION NavKey.RETURN true))).2
        = [Effect.xQueueReceive, Effect.uart_write_bytes (bytes "h"),
            Effect.uart_write_bytes (bytes "\r\n"),
            Effect.blit (List.replicate 16 [] ++ [bytes "h"]) []] :=
  ⟨⟨by decide, (C7_backspace boot).2.1 (by decide)⟩, by decide, by decide, by decide⟩

/-- C8. Submit: in every state of the main loop, a navigation event Return with state
pressed sends the editor text and then "\r\n" to the transport, renders once, leaves as
newest line of the scrollback (the last entry of the snapshot) the editor text unchanged,
and leaves `input_buffer` all NUL, the empty text. The scrollback gains that line by one
`add_line`: the rows in logical order are the old rows without the oldest, followed by
the row holding the editor text and NUL padding; when every old row holds a terminator
the snapshot is the old snapshot without its first line, followed by the editor text;
`led_buffer` is unchanged. At the example of the specification, the editor text "ping",
the transport receives "ping" and "\r\n", the newest line is "ping" and the editor is
empty. -/
theorem C8_submit (ticks : List Tick) :
    (loop_iter (loop_state ticks) (event_tick (Event.NAVIGATION NavKey.RETURN true))).2
        = [Effect.xQueueReceive,
            Effect.uart_write_bytes (cstr (loop_state ticks).input_buffer),
            Effect.uart_write_bytes (bytes "\r\n"),
            blit (loop_iter (loop_state ticks)
              (event_tick (Event.NAVIGATION NavKey.RETURN true))).1]
    ∧ (snapshot num_lines (loop_iter (loop_state ticks)
          (event_tick (Event.NAVIGATION NavKey.RETURN true))).1).getLast?
        = some (cstr (loop_state ticks).input_buffer)
    ∧ (loop_iter (loop_state ticks)
          (event_tick (Event.NAVIGATION NavKey.RETURN true))).1.input_buffer
        = List.replicate num_chars 0
    ∧ cstr (loop_iter (loop_state ticks)
          (event_tick (Event.NAVIGATION NavKey.RETURN true))).1.input_buffer = []
    ∧ (cstr (loop_state (List.map (fun c => event_tick (Event.KEYBOARD c))
          (bytes "ping"))).input_buffer = bytes "ping"
      ∧ loop_iter (loop_state (List.map (fun c => event_tick (Event.KEYBOARD c)) (bytes "ping")))
          (event_tick (Event.NAVIGATION NavKey.RETURN true))
        = ({ boot with
              line_buffers := boot.line_buffers.set 0 (bytes "ping" ++ List.replicate 56 0),
              line_index := (List.range 16).map (fun i => i + 1) ++ [0] },
           [Effect.xQueueReceive, Effect.uart_write_bytes (bytes "ping"),
            Effect.uart_write_bytes (bytes "\r\n"),
            Effect.blit (List.replicate 16 [] ++ [bytes "ping"]) []]))
    ∧ rows (loop_iter (loop_state ticks)
          (event_tick (Event.NAVIGATION NavKey.RETURN true))).1
        = (rows (loop_state ticks)).tail
          ++ [cstr (loop_state ticks).input_buffer
              ++ List.replicate (num_chars - strlen (loop_state ticks).input_buffer) 0]
    ∧ ((loop_iter (loop_state ticks)
          (event_tick (Event.NAVIGATION NavKey.RETURN true))).1.line_buffers
        = (add_line num_lines num_chars (loop_state ticks)
            (loop_state ticks).input_buffer).1.line_buffers
      ∧ (loop_iter (loop_state ticks)
          (event_tick (Event.NAVIGATION NavKey.RETURN true))).1.line_index
        = (add_line num_lines num_chars (loop_state ticks)
            (loop_state ticks).input_buffer).1.line_index
      ∧ (loop_iter (loop_state ticks)
          (event_tick (Event.NAVIGATION NavKey.RETURN true))).1.led_buffer
        = (loop_state ticks).led_buffer)
    ∧ (loop_iter (loop_state ticks)
          (event_tick (Event.NAVIGATION NavKey.RETURN true))).1.line_index
        = (List.range num_lines).map (fun i => ((loop_state ticks).line_index.getD i 0 + 1) % num_lines)
    ∧ ((∀ row ∈ (loop_state ticks).line_buffers, 0 ∈ row) →
        snapshot num_lines (loop_iter (loop_state ticks)
          (event_tick (Event.NAVIGATION NavKey.RETURN true))).1
        = (snapshot num_lines (loop_state ticks)).tail
          ++ [cstr (loop_state ticks).input_buffer]) := by
  obtain ⟨he, k, hr⟩ := loop_state_inv ticks
  have hL : 0 < num_lines := by decide
  have hstep : loop_iter (loop_state ticks) (event_tick (Event.NAVIGATION NavKey.RETURN true))
      = ((submit (loop_state ticks)).1,
          Effect.xQueueReceive :: ((submit (loop_state ticks)).2
            ++ [blit (submit (loop_state ticks)).1])) := by
    rw [loop_iter_idle_event _ _ (Event.NAVIGATION NavKey.RETURN true) rfl rfl]
    show ((navigation_event _ NavKey.RETURN true).1,
      Effect.xQueueReceive :: (navigation_event _ NavKey.RETURN true).2) = _
    rw [return_pressed_eq]
  have hsub := submit_eq (loop_state ticks) k hr he
  have hal := add_line_eq num_lines num_chars k (loop_state ticks)
    (loop_state ticks).input_buffer hL hr
  have hbufs : (submit (loop_state ticks)).1.line_buffers
      = (add_line num_lines num_chars (loop_state ticks)
          (loop_state ticks).input_buffer).1.line_buffers := by rw [hsub, hal]
  have hidx : (submit (loop_state ticks)).1.line_index
      = (add_line num_lines num_chars (loop_state ticks)
          (loop_state ticks).input_buffer).1.line_index := by rw [hsub, hal]
  have hclean : normalize (cstr (loop_state ticks).input_buffer)
      = cstr (loop_state ticks).input_buffer :=
    normalize_of_clean _ (not_mem_cstr_of_not_mem _ _ he.2.2.1)
      (not_mem_cstr_of_not_mem _ _ he.2.2.2)
  have hnew : newest_line num_lines (submit (loop_state ticks)).1
      = cstr (loop_state ticks).input_buffer := by
    rw [newest_line_congr num_lines _ _ hbufs hidx,
      newest_line_add_line num_lines num_chars k _ _ hL hr he.2.1, hclean]
  rw [hstep]
  refine ⟨?_, ?_, ?_, ?_, by decide, ?_, ⟨hbufs, hidx, ?_⟩, ?_, ?_⟩
  · simp only
    rw [hsub]
    rfl
  · simp only
    rw [snapshot_getLast _ _ hL, hnew]
  · simp only
    rw [hsub]
  · simp only
    rw [hsub]
    exact cstr_replicate_zero _
  · simp only
    rw [rows_congr _ _ hbufs hidx, rows_add_line num_lines num_chars k _ _ hL hr,
      stored_row_clean num_chars _ he.2.1 he.2.2.1 he.2.2.2]
  · simp only
    rw [hsub]
  · simp only
    rw [hsub]
    simp only
    rw [← rotate_index_idxk, ← hr.1]
    unfold rotate_index
    have hlen : (loop_state ticks).line_index.length = num_lines := by
      rw [hr.1, idxk_length]
    rw [foldl_set_range_map (fun x => (x + 1) % num_lines) _ num_lines (by omega),
      List.drop_of_length_le (by omega), List.append_nil, List.take_of_length_le (by omega)]
    have hmap := map_range_getD (fun x => (x + 1) % num_lines) (loop_state ticks).line_index
    rw [hlen] at hmap
    exact hmap.symm
  · intro hterm
    simp only
    rw [snapshot_congr _ _ _ hbufs hidx,
      snapshot_add_line_terminated num_lines num_chars k _ _ hL hr hterm he.2.1, hclean]

/-- C8, in the loop state where the transport has delivered "ab" and then "cd" and the
events "ping" have been typed: Return leaves the snapshot as fourteen blank lines, "ab",
"cd" and "ping", so the earlier lines are kept and one blank line is dropped. -/
theorem C8_submit_witness :
    (∀ row ∈ (loop_state ([rx_tick (bytes "ab"), rx_tick (bytes "cd")]
        ++ List.map (fun c => event_tick (Event.KEYBOARD c)) (bytes "ping"))).line_buffers,
        0 ∈ row)
    ∧ snapshot num_lines (loop_iter (loop_state ([rx_tick (bytes "ab"), rx_tick (bytes "cd")]
          ++ List.map (fun c => event_tick (Event.KEYBOARD c)) (bytes "ping")))
          (event_tick (Event.NAVIGATION NavKey.RETURN true))).1
        = (snapshot num_lines (loop_state ([rx_tick (bytes "ab"), rx_tick (bytes "cd")]
            ++ List.map (fun c => event_tick (Event.KEYBOARD c)) (bytes "ping")))).tail
          ++ [cstr (loop_state ([rx_tick (bytes "ab"), rx_tick (bytes "cd")]
            ++ List.map (fun c => event_tick (Event.KEYBOARD c)) (bytes "ping"))).input_buffer]
    ∧ snapshot num_lines (loop_state ([rx_tick (bytes "ab"), rx_tick (bytes "cd")]
          ++ List.map (fun c => event_tick (Event.KEYBOARD c)) (bytes "ping")))
        = List.replicate 15 [] ++ [bytes "ab", bytes "cd"]
    ∧ snapshot num_lines (loop_iter (loop_state ([rx_tick (bytes "ab"), rx_tick (bytes "cd")]
          ++ List.map (fun c => event_tick (Event.KEYBOARD c)) (bytes "ping")))
          (event_tick (Event.NAVIGATION NavKey.RETURN true))).1
        = List.replicate 14 [] ++ [bytes "ab", bytes "cd", bytes "ping"] :=
  ⟨by decide,
    (C8_submit ([rx_tick (bytes "ab"), rx_tick (bytes "cd")]
      ++ List.map (fun c => event_tick (Event.KEYBOARD c)) (bytes "ping"))).2.2.2.2.2.2.2.2
      (by decide),
    by decide, by decide⟩

/-- C9. CR/LF are never inserted into the editor: a keyboard event whose character is
`'\r'` or `'\n'` leaves all globals unchanged, and in every state of the main loop
`input_buffer` holds neither `'\r'` nor `'\n'`. -/
theorem C9_crlf_never_inserted (g : Globals) (ticks : List Tick) (ascii : Nat)
    (h : ascii = 13 ∨ ascii = 10) :
    (loop_iter g (event_tick (Event.KEYBOARD ascii))).1 = g
    ∧ 13 ∉ (loop_state ticks).input_buffer
    ∧ 10 ∉ (loop_state ticks).input_buffer := by
  obtain ⟨he, _⟩ := loop_state_inv ticks
  refine ⟨?_, he.2.2.1, he.2.2.2⟩
  rw [loop_iter_idle_event _ _ (Event.KEYBOARD ascii) rfl rfl]
  show keyboard_edit g ascii = g
  unfold keyboard_edit
  have h8 : ascii ≠ 8 := by rcases h with h | h <;> omega
  rw [if_neg h8, if_pos h]

/-- C9, for the character `'\r'` after the events 'a', `'\n'`, 'b', `'\r'`: the editor
text is "ab" and stays "ab". -/
theorem C9_crlf_never_inserted_witness :
    (13 = 13 ∨ 13 = 10)
    ∧ ((loop_iter (loop_state (List.map (fun c => event_tick (Event.KEYBOARD c)) [97, 10, 98, 13]))
          (event_tick (Event.KEYBOARD 13))).1
        = loop_state (List.map (fun c => event_tick (Event.KEYBOARD c)) [97, 10, 98, 13])
      ∧ 13 ∉ (loop_state (List.map (fun c => event_tick (Event.KEYBOARD c))
          [97, 10, 98, 13])).input_buffer
      ∧ 10 ∉ (loop_state (List.map (fun c => event_tick (Event.KEYBOARD c))
          [97, 10, 98, 13])).input_buffer)
    ∧ cstr (loop_state (List.map (fun c => event_tick (Event.KEYBOARD c))
          [97, 10, 98, 13])).input_buffer = bytes "ab" :=
  ⟨by decide, C9_crlf_never_inserted _ _ 13 (by decide), by decide⟩

/-- C10. Keyboard events do not touch the scrollback: in a loop iteration where the
transport reports 0 bytes and the queue delivers a keyboard event, `line_buffers`,
`line_index` and `led_buffer` are unchanged for every character, the effects are the
dequeue and exactly one `blit` of the new state, and for a character other than `'\b'`,
`'\r'`, `'\n'` and NUL on an editor that is not full the editor text becomes the old text
followed by that character. -/
theorem C10_keyboard_frame (ticks : List Tick) (t : Tick) (ascii : Nat)
    (hb : t.buffered = 0) (hev : t.event = some (Event.KEYBOARD ascii)) :
    (loop_iter (loop_state ticks) t).1.line_buffers = (loop_state ticks).line_buffers
    ∧ (loop_iter (loop_state ticks) t).1.line_index = (loop_state ticks).line_index
    ∧ (loop_iter (loop_state ticks) t).1.led_buffer = (loop_state ticks).led_buffer
    ∧ (loop_iter (loop_state ticks) t).2
        = [Effect.xQueueReceive, blit (loop_iter (loop_state ticks) t).1]
    ∧ count_blit (loop_iter (loop_state ticks) t).2 = 1
    ∧ (ascii ≠ 8 ∧ ascii ≠ 13 ∧ ascii ≠ 10 ∧ ascii ≠ 0
        ∧ strlen (loop_state ticks).input_buffer < num_chars - 1 →
        cstr (loop_iter (loop_state ticks) t).1.input_buffer
          = cstr (loop_state ticks).input_buffer ++ [ascii]) := by
  obtain ⟨he, _⟩ := loop_state_inv ticks
  have hstep : loop_iter (loop_state ticks) t
      = (keyboard_edit (loop_state ticks) ascii,
          [Effect.xQueueReceive, blit (keyboard_edit (loop_state ticks) ascii)]) := by
    rw [loop_iter_idle_event _ _ (Event.KEYBOARD ascii) hb hev]; rfl
  have hf := keyboard_edit_ring (loop_state ticks) ascii
  rw [hstep]
  refine ⟨hf.1, hf.2.1, hf.2.2, rfl, rfl, ?_⟩
  rintro ⟨h8, h13, h10, h0, hroom⟩
  have htext := keyboard_edit_text (loop_state ticks) ascii he
  rw [if_neg h8, if_neg (fun h => h.elim h13 h10), if_pos ⟨hroom, h0⟩] at htext
  exact htext

/-- C10, at the scenario of the specification: nothing buffered on the transport and a
keyboard event 'x' in the boot state. -/
theorem C10_keyboard_frame_witness :
    ((event_tick (Event.KEYBOARD 120)).buffered = 0
      ∧ (event_tick (Event.KEYBOARD 120)).event = some (Event.KEYBOARD 120)
      ∧ (120 ≠ 8 ∧ 120 ≠ 13 ∧ 120 ≠ 10 ∧ 120 ≠ 0
          ∧ strlen (loop_state []).input_buffer < num_chars - 1))
    ∧ cstr (loop_iter (loop_state []) (event_tick (Event.KEYBOARD 120))).1.input_buffer
        = cstr (loop_state []).input_buffer ++ [120]
    ∧ loop_iter (loop_state []) (event_tick (Event.KEYBOARD 120))
        = ({ boot with input_buffer := [120] ++ List.replicate 59 0 },
           [Effect.xQueueReceive, Effect.blit (List.replicate 17 []) [120]]) :=
  ⟨⟨rfl, rfl, by decide⟩,
    (C10_keyboard_frame [] (event_tick (Event.KEYBOARD 120)) 120 rfl rfl).2.2.2.2.2 (by decide),
    by decide⟩

/-- C11. Transport read error: in a loop iteration of the main loop where the transport
reports at least one byte (a count that fits the `int` it is stored in), a negative
result of `uart_read_bytes` leaves all globals unchanged, the only effects being the read
and the error log, so nothing is rendered and no event is dequeued; a non-negative result
calls `add_line` once on the receive buffer, so the rows of the ring move up by one with
the received line as newest, `input_buffer` is unchanged, and `blit` is called once. -/
theorem C11_read_error (ticks : List Tick) (t : Tick) (hb : 0 < t.buffered)
    (hb2 : t.buffered < 2 ^ 31) :
    (t.read_ret < 0 →
      (loop_iter (loop_state ticks) t).1 = loop_state ticks
      ∧ (loop_iter (loop_state ticks) t).2
          = [Effect.uart_read_bytes (read_length t.buffered), Effect.log_error]
      ∧ count_blit (loop_iter (loop_state ticks) t).2 = 0)
    ∧ (0 ≤ t.read_ret →
      (loop_iter (loop_state ticks) t).1
          = (add_line num_lines num_chars (loop_state ticks) (rx_data t)).1
      ∧ rows (loop_iter (loop_state ticks) t).1
          = (rows (loop_state ticks)).tail ++ [stored_row num_chars (rx_data t)]
      ∧ (loop_iter (loop_state ticks) t).1.input_buffer = (loop_state ticks).input_buffer
      ∧ (loop_iter (loop_state ticks) t).2
          = [Effect.uart_read_bytes (read_length t.buffered), Effect.printf (cstr (rx_data t)),
              blit (loop_iter (loop_state ticks) t).1]
      ∧ count_blit (loop_iter (loop_state ticks) t).2 = 1) := by
  obtain ⟨_, k, hr⟩ := loop_state_inv ticks
  have hstep := loop_iter_transport (loop_state ticks) t (read_length_pos _ hb hb2)
  refine ⟨?_, ?_⟩
  · intro hneg
    rw [hstep, if_pos hneg]
    exact ⟨rfl, rfl, rfl⟩
  · intro hok
    rw [hstep, if_neg (by omega)]
    exact ⟨rfl, rows_add_line num_lines num_chars k _ _ (by decide) hr, rfl, rfl, rfl⟩

/-- C11, for three buffered bytes "abc" with a pending keyboard event: a read result of -1
changes nothing and renders nothing, a read result of 3 shows "abc" as newest line. -/
theorem C11_read_error_witness :
    ((0 < 3 ∧ 3 < 2 ^ 31 ∧ (-1 : Int) < 0)
      ∧ (loop_iter (loop_state [])
          (Tick.mk 3 (-1) [97, 98, 99] (some (Event.KEYBOARD 120)))).1 = loop_state []
      ∧ (loop_iter (loop_state [])
          (Tick.mk 3 (-1) [97, 98, 99] (some (Event.KEYBOARD 120)))).2
          = [Effect.uart_read_bytes (read_length 3), Effect.log_error]
      ∧ count_blit (loop_iter (loop_state [])
          (Tick.mk 3 (-1) [97, 98, 99] (some (Event.KEYBOARD 120)))).2 = 0)
    ∧ ((0 : Int) ≤ 3
      ∧ count_blit (loop_iter (loop_state [])
          (Tick.mk 3 3 [97, 98, 99] (some (Event.KEYBOARD 120)))).2 = 1
      ∧ (loop_iter (loop_state [])
          (Tick.mk 3 3 [97, 98, 99] (some (Event.KEYBOARD 120)))).2
          = [Effect.uart_read_bytes 3, Effect.printf (bytes "abc"),
              Effect.blit (List.replicate 16 [] ++ [bytes "abc"]) []]) :=
  ⟨⟨by decide,
      (C11_read_error [] (Tick.mk 3 (-1) [97, 98, 99] (some (Event.KEYBOARD 120))) (by decide) (by decide)).1 (by decide)⟩,
    ⟨by decide,
      ((C11_read_error [] (Tick.mk 3 3 [97, 98, 99] (some (Event.KEYBOARD 120))) (by decide) (by decide)).2 (by decide)).2.2.2.2,
      by decide⟩⟩

/-- C12. Transport priority: in a loop iteration where the transport reports at least one
byte (a count that fits the `int` it is stored in) the queue is not asked for an event,
the iteration does not depend on what the queue holds, and `input_buffer` is unchanged;
the queue is asked only in an iteration where the transport reports 0 bytes. -/
theorem C12_transport_priority (g : Globals) (t : Tick) (hb2 : t.buffered < 2 ^ 31) :
    (0 < t.buffered →
      Effect.xQueueReceive ∉ (loop_iter g t).2
      ∧ (loop_iter g t).1.input_buffer = g.input_buffer
      ∧ loop_iter g t = loop_iter g { t with event := none })
    ∧ (Effect.xQueueReceive ∈ (loop_iter g t).2 → t.buffered = 0) := by
  have hprio : 0 < t.buffered → Effect.xQueueReceive ∉ (loop_iter g t).2
      ∧ (loop_iter g t).1.input_buffer = g.input_buffer
      ∧ loop_iter g t = loop_iter g { t with event := none } := by
    intro hb
    have hpos := read_length_pos _ hb hb2
    have hstep := loop_iter_transport g t hpos
    have hstep2 := loop_iter_transport g { t with event := none } hpos
    refine ⟨?_, ?_, ?_⟩
    · rw [hstep]
      split
      · simp
      · simp [blit]
    · rw [hstep]
      split
      · rfl
      · rfl
    · rw [hstep, hstep2]
      rfl
  refine ⟨hprio, ?_⟩
  intro hmem
  by_contra hne
  exact (hprio (by omega)).1 hmem

/-- C12, for one buffered byte "a" with a keyboard event 'x' waiting in the queue (the
event is left in the queue and the editor stays empty) and for no buffered byte with the
same event (the queue is asked). -/
theorem C12_transport_priority_witness :
    ((1 < 2 ^ 31 ∧ 0 < 1)
      ∧ Effect.xQueueReceive ∉
          (loop_iter boot (Tick.mk 1 1 [97] (some (Event.KEYBOARD 120)))).2
      ∧ (loop_iter boot (Tick.mk 1 1 [97] (some (Event.KEYBOARD 120)))).1.input_buffer
          = boot.input_buffer)
    ∧ (Effect.xQueueReceive ∈ (loop_iter boot (Tick.mk 0 0 [] (some (Event.KEYBOARD 120)))).2
      ∧ (Tick.mk 0 0 [] (some (Event.KEYBOARD 120))).buffered = 0) :=
  ⟨⟨by decide,
      ((C12_transport_priority boot (Tick.mk 1 1 [97] (some (Event.KEYBOARD 120)))
        (by decide)).1 (by decide)).1,
      ((C12_transport_priority boot (Tick.mk 1 1 [97] (some (Event.KEYBOARD 120)))
        (by decide)).1 (by decide)).2.1⟩,
    ⟨by decide,
      (C12_transport_priority boot (Tick.mk 0 0 [] (some (Event.KEYBOARD 120)))
        (by decide)).2 (by decide)⟩⟩

/-- C13. Read-length cap: for every buffered byte count `n` that fits the `int` it is
stored in, the value of `length` after the clamp is `min(n, RADIO_BUFFER - 1)` =
`min(n, 255)`, and when `n` is at least 1 this is the length passed to
`uart_read_bytes`. Whatever the driver holds, the receive buffer afterwards has
`RADIO_BUFFER` = 256 bytes, its last byte is NUL, and the string in it has at most 255
characters. -/
theorem C13_read_length_cap (g : Globals) (t : Tick) (hn : t.buffered < 2 ^ 31) :
    read_length t.buffered = ((min t.buffered (RADIO_BUFFER - 1) : Nat) : Int)
    ∧ min t.buffered (RADIO_BUFFER - 1) = min t.buffered 255
    ∧ (0 < t.buffered →
        (loop_iter g t).2.head? = some (Effect.uart_read_bytes ((min t.buffered 255 : Nat) : Int)))
    ∧ (rx_data t).length = RADIO_BUFFER
    ∧ (rx_data t).getD (RADIO_BUFFER - 1) 1 = 0
    ∧ strlen (rx_data t) ≤ 255
    ∧ 0 ∈ rx_data t := by
  have hterm := rx_data_terminated t
  have hrl := read_length_eq_min t.buffered hn
  refine ⟨hrl, rfl, ?_, hterm.1, hterm.2.1, hterm.2.2, ?_⟩
  · intro hb
    rw [loop_iter_transport g t (read_length_pos _ hb hn), hrl]
    split
    · rfl
    · rfl
  · apply (strlen_lt_iff_mem _).mp
    have h1 := hterm.1
    have h2 := hterm.2.2
    simp only [RADIO_BUFFER] at h1 h2
    omega

/-- C13, for 300 buffered bytes 'a': 255 bytes are requested and the string received has
255 characters. -/
theorem C13_read_length_cap_witness :
    (300 < 2 ^ 31 ∧ 0 < 300)
    ∧ read_length 300 = 255
    ∧ (loop_iter boot (rx_tick (List.replicate 300 97))).2.head?
        = some (Effect.uart_read_bytes ((min (rx_tick (List.replicate 300 97)).buffered 255 : Nat) : Int))
    ∧ strlen (rx_data (rx_tick (List.replicate 300 97))) = 255 :=
  ⟨by decide, by decide,
    (C13_read_length_cap boot (rx_tick (List.replicate 300 97)) (by decide)).2.2.1 (by decide),
    by decide⟩

/-- C14, as the claim states it, fails: in the boot state a navigation event F1 with
state pressed does issue the normal render, once, before the alternate view. -/
theorem C14_f1_normal_render_issued :
    ¬ (count_blit (loop_iter boot (event_tick (Event.NAVIGATION NavKey.F1 true))).2 = 0)
    ∧ (loop_iter boot (event_tick (Event.NAVIGATION NavKey.F1 true))).2
        = [Effect.xQueueReceive, Effect.blit (List.replicate 17 []) [],
            Effect.wallpaper_frame,
            Effect.bsp_led_write
              [3, 252, 3, 111, 252, 3, 252, 244, 3, 3, 252, 227, 3, 3, 252, 252, 3, 3]] := by
  decide

/-- C14, amended. In a loop iteration where the transport reports 0 bytes and the queue
delivers a navigation event with key F1 and state pressed, the loop first issues the
normal render of the unchanged state and then shows the alternate full-screen view (the
image frame followed by the LED write), so the alternate view is the last frame sent to
the panel; `line_buffers`, `line_index` and `input_buffer` are unchanged and nothing is
written to the transport. -/
theorem C14_f1_override (g : Globals) (t : Tick) (hb : t.buffered = 0)
    (hev : t.event = some (Event.NAVIGATION NavKey.F1 true)) :
    (loop_iter g t).2
        = [Effect.xQueueReceive, blit g, Effect.wallpaper_frame,
            Effect.bsp_led_write (loop_iter g t).1.led_buffer]
    ∧ (loop_iter g t).2.getLast? = some (Effect.bsp_led_write (loop_iter g t).1.led_buffer)
    ∧ count_blit (loop_iter g t).2 = 1
    ∧ (loop_iter g t).1.line_buffers = g.line_buffers
    ∧ (loop_iter g t).1.line_index = g.line_index
    ∧ (loop_iter g t).1.input_buffer = g.input_buffer
    ∧ (loop_iter g t).1 = (wallpaper g).1 := by
  have hw := wallpaper_frame_only g
  have hstep : loop_iter g t
      = ((wallpaper g).1, [Effect.xQueueReceive, blit g, Effect.wallpaper_frame,
          Effect.bsp_led_write (wallpaper g).1.led_buffer]) := by
    rw [loop_iter_idle_event g t _ hb hev]
    show ((navigation_event g NavKey.F1 true).1,
      Effect.xQueueReceive :: (navigation_event g NavKey.F1 true).2) = _
    unfold navigation_event
    simp only [if_true, if_neg (show ¬ NavKey.F1 = NavKey.RETURN by decide), List.nil_append,
      List.singleton_append]
    rfl
  rw [hstep]
  exact ⟨rfl, rfl, rfl, hw.1, hw.2.1, hw.2.2, rfl⟩

/-- C14 amended, in the loop state after the keyboard events "ab". -/
theorem C14_f1_override_witness :
    ((event_tick (Event.NAVIGATION NavKey.F1 true)).buffered = 0
      ∧ (event_tick (Event.NAVIGATION NavKey.F1 true)).event
          = some (Event.NAVIGATION NavKey.F1 true))
    ∧ (loop_iter (loop_state (typed 2 97)) (event_tick (Event.NAVIGATION NavKey.F1 true))).2
        = [Effect.xQueueReceive, blit (loop_state (typed 2 97)), Effect.wallpaper_frame,
            Effect.bsp_led_write (loop_iter (loop_state (typed 2 97))
              (event_tick (Event.NAVIGATION NavKey.F1 true))).1.led_buffer]
    ∧ cstr (loop_iter (loop_state (typed 2 97))
        (event_tick (Event.NAVIGATION NavKey.F1 true))).1.input_buffer = [97, 97] :=
  ⟨⟨rfl, rfl⟩,
    (C14_f1_override (loop_state (typed 2 97)) (event_tick (Event.NAVIGATION NavKey.F1 true))
      rfl rfl).1,
    by decide⟩

/-- C15. Navigation events act only on key-down: in a loop iteration where the transport
reports 0 bytes and the queue delivers a navigation event, a released state changes no
global and has no effect but the dequeue (no render, no transport write) for every key,
and a pressed state with a key other than Return and F1 changes no global and has the
dequeue and one normal render as its only effects. -/
theorem C15_navigation_key_down (g : Globals) (t : Tick) (key : NavKey) (state : Bool)
    (hb : t.buffered = 0) (hev : t.event = some (Event.NAVIGATION key state)) :
    (state = false → loop_iter g t = (g, [Effect.xQueueReceive]))
    ∧ (state = true → key ≠ NavKey.RETURN → key ≠ NavKey.F1 →
        loop_iter g t = (g, [Effect.xQueueReceive, blit g])
        ∧ count_blit (loop_iter g t).2 = 1) := by
  have hstep : loop_iter g t = ((navigation_event g key state).1,
      Effect.xQueueReceive :: (navigation_event g key state).2) := by
    rw [loop_iter_idle_event g t _ hb hev]; rfl
  refine ⟨?_, ?_⟩
  · intro hs
    subst hs
    rw [hstep]
    rfl
  · intro hs hret hf1
    subst hs
    have hnav : navigation_event g key true = (g, [blit g]) := by
      unfold navigation_event
      simp only [if_true, if_neg hret, if_neg hf1, List.nil_append, List.append_nil]
    rw [hstep, hnav]
    exact ⟨rfl, rfl⟩

/-- C15, in the loop state after the keyboard events "ab": Return released and F1 released
do nothing, and a pressed key with code 7 only renders. -/
theorem C15_navigation_key_down_witness :
    (loop_iter (loop_state (typed 2 97)) (event_tick (Event.NAVIGATION NavKey.RETURN false))
        = (loop_state (typed 2 97), [Effect.xQueueReceive])
      ∧ loop_iter (loop_state (typed 2 97)) (event_tick (Event.NAVIGATION NavKey.F1 false))
        = (loop_state (typed 2 97), [Effect.xQueueReceive]))
    ∧ ((NavKey.OTHER 7 ≠ NavKey.RETURN ∧ NavKey.OTHER 7 ≠ NavKey.F1)
      ∧ loop_iter (loop_state (typed 2 97)) (event_tick (Event.NAVIGATION (NavKey.OTHER 7) true))
        = (loop_state (typed 2 97), [Effect.xQueueReceive, blit (loop_state (typed 2 97))])
      ∧ count_blit (loop_iter (loop_state (typed 2 97))
          (event_tick (Event.NAVIGATION (NavKey.OTHER 7) true))).2 = 1) :=
  ⟨⟨(C15_navigation_key_down _ (event_tick (Event.NAVIGATION NavKey.RETURN false))
        NavKey.RETURN false rfl rfl).1 rfl,
      (C15_navigation_key_down _ (event_tick (Event.NAVIGATION NavKey.F1 false))
        NavKey.F1 false rfl rfl).1 rfl⟩,
    ⟨by decide,
      (C15_navigation_key_down _ (event_tick (Event.NAVIGATION (NavKey.OTHER 7) true))
        (NavKey.OTHER 7) true rfl rfl).2 rfl (by decide) (by decide)⟩⟩

/-- C16. LED packing is GRB, three bytes per LED: for every LED index below 6 and every
colour, on the 18-byte `led_buffer`, `set_led_color` stores the colour shifted right by
8, 16 and 0 bits, each mod 256, at the bytes `3 * led`, `3 * led + 1` and `3 * led + 2`
(for a colour `0xRRGGBB` these are GG, RR, BB), all three inside the buffer, leaves every
other byte and every other global unchanged and keeps the 18 bytes; after `wallpaper` the
buffer holds the six palette colours in that byte order. -/
theorem C16_led_packing (g : Globals) (led color : Nat) (hled : led < 6)
    (hlen : g.led_buffer.length = 6 * 3) :
    ((set_led_color g led color).led_buffer.getD (3 * led) 0 = (color >>> 8) % 256
      ∧ (set_led_color g led color).led_buffer.getD (3 * led + 1) 0 = (color >>> 16) % 256
      ∧ (set_led_color g led color).led_buffer.getD (3 * led + 2) 0 = (color >>> 0) % 256)
    ∧ (∀ r gg b, r < 256 → gg < 256 → b < 256 → color = r * 65536 + gg * 256 + b →
        (set_led_color g led color).led_buffer.getD (3 * led) 0 = gg
        ∧ (set_led_color g led color).led_buffer.getD (3 * led + 1) 0 = r
        ∧ (set_led_color g led color).led_buffer.getD (3 * led + 2) 0 = b)
    ∧ (∀ i, i ≠ 3 * led → i ≠ 3 * led + 1 → i ≠ 3 * led + 2 →
        (set_led_color g led color).led_buffer.getD i 0 = g.led_buffer.getD i 0)
    ∧ (set_led_color g led color).led_buffer.length = 6 * 3
    ∧ 3 * led + 2 < g.led_buffer.length
    ∧ ((set_led_color g led color).line_buffers = g.line_buffers
      ∧ (set_led_color g led color).line_index = g.line_index
      ∧ (set_led_color g led color).input_buffer = g.input_buffer)
    ∧ (wallpaper g).1.led_buffer
        = [3, 252, 3, 111, 252, 3, 252, 244, 3, 3, 252, 227, 3, 3, 252, 252, 3, 3] := by
  have h0 : (set_led_color g led color).led_buffer.getD (3 * led) 0 = (color >>> 8) % 256 := by
    rw [set_led_color_led_buffer, getD_set_ne _ _ _ _ _ (by omega),
      getD_set_ne _ _ _ _ _ (by omega), show led * 3 + 0 = 3 * led by omega,
      getD_set_eq _ _ _ _ (by omega), mask_byte]
  have h1 : (set_led_color g led color).led_buffer.getD (3 * led + 1) 0
      = (color >>> 16) % 256 := by
    rw [set_led_color_led_buffer, getD_set_ne _ _ _ _ _ (by omega),
      show led * 3 + 1 = 3 * led + 1 by omega,
      getD_set_eq _ _ _ _ (by rw [List.length_set]; omega), mask_byte]
  have h2 : (set_led_color g led color).led_buffer.getD (3 * led + 2) 0
      = (color >>> 0) % 256 := by
    rw [set_led_color_led_buffer, show led * 3 + 2 = 3 * led + 2 by omega,
      getD_set_eq _ _ _ _ (by rw [List.length_set, List.length_set]; omega), mask_byte]
  refine ⟨⟨h0, h1, h2⟩, ?_, ?_, ?_, by omega, ⟨rfl, rfl, rfl⟩, wallpaper_led_buffer g hlen⟩
  · intro r gg b hr hg hb hc
    have hrgb := rgb_bytes r gg b hr hg hb
    rw [h0, h1, h2, hc]
    exact hrgb
  · intro i hi0 hi1 hi2
    rw [set_led_color_led_buffer, getD_set_ne _ _ _ _ _ (by omega),
      getD_set_ne _ _ _ _ _ (by omega), getD_set_ne _ _ _ _ _ (by omega)]
  · rw [set_led_color_led_buffer, List.length_set, List.length_set, List.length_set, hlen]

/-- C16, for LED 4 and the colour `0x0303FC` in the boot state: the bytes 12, 13, 14 of
`led_buffer` become 3, 3, 252 (GG, RR, BB) and the other bytes stay 0. -/
theorem C16_led_packing_witness :
    (4 < 6 ∧ boot.led_buffer.length = 6 * 3
      ∧ (3 < 256 ∧ 3 < 256 ∧ 252 < 256 ∧ 0x0303FC = 3 * 65536 + 3 * 256 + 252))
    ∧ ((set_led_color boot 4 0x0303FC).led_buffer.getD (3 * 4) 0 = 3
      ∧ (set_led_color boot 4 0x0303FC).led_buffer.getD (3 * 4 + 1) 0 = 3
      ∧ (set_led_color boot 4 0x0303FC).led_buffer.getD (3 * 4 + 2) 0 = 252)
    ∧ (set_led_color boot 4 0x0303FC).led_buffer
        = [0, 0, 0, 0, 0, 0, 0, 0, 0, 0, 0, 0, 3, 3, 252, 0, 0, 0] :=
  ⟨by decide,
    (C16_led_packing boot 4 0x0303FC (by decide) (by decide)).2.1 3 3 252
      (by decide) (by decide) (by decide) (by decide),
    by decide⟩

/-- C17. Closed form of the rotation: after `init` and `k` calls of `add_line` (on any
buffers), `line_index[i] = (i + k) mod num_lines` for every `i` below `num_lines`; the
next call, the `(k + 1)`-th, writes the physical slot `k mod num_lines` and no other;
`num_lines` further calls bring `line_index` back to what it was; and the ring equals the
head-index circular buffer fed with the same buffers, whose head is `k mod num_lines`:
same rows, same slot for each logical position, same lines shown. -/
theorem C17_rotation_closed_form (texts : List (List Nat)) :
    (ring_run num_lines num_chars texts).line_index
        = (List.range num_lines).map (fun i => (i + texts.length) % num_lines)
    ∧ (∀ i, i < num_lines →
        (ring_run num_lines num_chars texts).line_index.getD i 0
          = (i + texts.length) % num_lines)
    ∧ (∀ t : List Nat,
        (ring_run num_lines num_chars (texts ++ [t])).line_index.getD (num_lines - 1) 0
          = texts.length % num_lines
        ∧ (ring_run num_lines num_chars (texts ++ [t])).line_buffers
          = (ring_run num_lines num_chars texts).line_buffers.set (texts.length % num_lines)
              (stored_row num_chars t))
    ∧ (∀ more : List (List Nat), more.length = num_lines →
        (append_all num_lines num_chars (ring_run num_lines num_chars texts) more).line_index
          = (ring_run num_lines num_chars texts).line_index)
    ∧ ((head_run num_lines num_chars texts).head = texts.length % num_lines
      ∧ (head_run num_lines num_chars texts).storage
          = (ring_run num_lines num_chars texts).line_buffers
      ∧ head_order num_lines (head_run num_lines num_chars texts)
          = (ring_run num_lines num_chars texts).line_index
      ∧ head_snapshot num_lines (head_run num_lines num_chars texts)
          = snapshot num_lines (ring_run num_lines num_chars texts)) := by
  have hL : 0 < num_lines := by decide
  have hinv := ring_run_inv num_lines num_chars hL texts
  have href := head_run_refines num_lines num_chars hL texts
  refine ⟨hinv.1, ?_, ?_, ?_, href.2, href.1, ?_, ?_⟩
  · intro i hi
    rw [hinv.1]
    exact idxk_getD _ _ i hi
  · intro t
    rw [ring_run_snoc, add_line_eq num_lines num_chars _ _ t hL hinv]
    exact ⟨idxk_last _ _ hL, rfl⟩
  · intro more hmore
    have h2 := append_all_inv num_lines num_chars hL more _ _ hinv
    rw [h2.1, hmore, idxk_add_period, hinv.1]
  · rw [hinv.1]
    exact head_order_eq_idxk _ _ _ href.2
  · exact head_snapshot_eq _ _ _ _ _ hinv href.1 href.2

/-- C17, after the twenty appends "a" to "t": `line_index[5] = (5 + 20) mod 17 = 8`, the
twenty-first append writes slot `20 mod 17 = 3`, and seventeen further appends leave
`line_index` as it is. -/
theorem C17_rotation_closed_form_witness :
    (5 < num_lines
      ∧ (ring_run num_lines num_chars ((List.range 20).map (fun i => [97 + i]))).line_index.getD 5 0
          = (5 + ((List.range 20).map (fun i => [97 + i])).length) % num_lines
      ∧ (5 + ((List.range 20).map (fun i => [97 + i])).length) % num_lines = 8)
    ∧ ((ring_run num_lines num_chars
          ((List.range 20).map (fun i => [97 + i]) ++ [[117]])).line_index.getD (num_lines - 1) 0
          = ((List.range 20).map (fun i => [97 + i])).length % num_lines
      ∧ ((List.range 20).map (fun i => [97 + i])).length % num_lines = 3)
    ∧ ((List.replicate 17 [120]).length = num_lines
      ∧ (append_all num_lines num_chars
          (ring_run num_lines num_chars ((List.range 20).map (fun i => [97 + i])))
          (List.replicate 17 [120])).line_index
        = (ring_run num_lines num_chars ((List.range 20).map (fun i => [97 + i]))).line_index) :=
  ⟨⟨by decide,
      (C17_rotation_closed_form ((List.range 20).map (fun i => [97 + i]))).2.1 5 (by decide),
      by decide⟩,
    ⟨((C17_rotation_closed_form ((List.range 20).map (fun i => [97 + i]))).2.2.1 [117]).1,
      by decide⟩,
    ⟨by decide,
      (C17_rotation_closed_form ((List.range 20).map (fun i => [97 + i]))).2.2.2.1
        (List.replicate 17 [120]) (by decide)⟩⟩

/-- C18. Frame of `add_line` on the storage: in the ring after `init` and any `add_line`
calls, a further `add_line` on any buffer `text` writes one row of `line_buffers`, the
one at the new `line_index[num_lines - 1]`, which is the slot `line_index[0]` held before
the call (the oldest line) and lies inside the array. That row becomes the `num_chars`
bytes stored for `text`, whatever it held before: the first `num_chars` characters of the
string with `'\r'` and `'\n'` as spaces, then NUL up to `num_chars` bytes, so for a
string shorter than `num_chars` every byte after the text is NUL. Every other row, the
number of rows, `input_buffer` and `led_buffer` are unchanged. -/
theorem C18_add_line_frame (texts : List (List Nat)) (text : List Nat) :
    (add_line num_lines num_chars (ring_run num_lines num_chars texts) text).1.line_index.getD
        (num_lines - 1) 0
      = (ring_run num_lines num_chars texts).line_index.getD 0 0
    ∧ (ring_run num_lines num_chars texts).line_index.getD 0 0
        < (ring_run num_lines num_chars texts).line_buffers.length
    ∧ (add_line num_lines num_chars (ring_run num_lines num_chars texts) text).1.line_buffers
      = (ring_run num_lines num_chars texts).line_buffers.set
          ((ring_run num_lines num_chars texts).line_index.getD 0 0)
          ((normalize (cstr text)).take num_chars
            ++ List.replicate (num_chars - ((normalize (cstr text)).take num_chars).length) 0)
    ∧ ((add_line num_lines num_chars (ring_run num_lines num_chars texts) text).1.line_buffers.getD
        ((ring_run num_lines num_chars texts).line_index.getD 0 0) []).length = num_chars
    ∧ (∀ j, j ≠ (ring_run num_lines num_chars texts).line_index.getD 0 0 →
        (add_line num_lines num_chars (ring_run num_lines num_chars texts) text).1.line_buffers.getD
            j []
          = (ring_run num_lines num_chars texts).line_buffers.getD j [])
    ∧ (add_line num_lines num_chars (ring_run num_lines num_chars texts) text).1.line_buffers.length
        = num_lines
    ∧ (ring_run num_lines num_chars texts).line_buffers.length = num_lines
    ∧ (add_line num_lines num_chars (ring_run num_lines num_chars texts) text).1.input_buffer
        = (ring_run num_lines num_chars texts).input_buffer
    ∧ (add_line num_lines num_chars (ring_run num_lines num_chars texts) text).1.led_buffer
        = (ring_run num_lines num_chars texts).led_buffer
    ∧ (strlen text < num_chars → ∀ i, strlen text ≤ i → i < num_chars →
        ((add_line num_lines num_chars (ring_run num_lines num_chars texts)
            text).1.line_buffers.getD
          ((ring_run num_lines num_chars texts).line_index.getD 0 0) []).getD i 1 = 0) := by
  have hL : 0 < num_lines := by decide
  have hinv := ring_run_inv num_lines num_chars hL texts
  have hold : (ring_run num_lines num_chars texts).line_index.getD 0 0
      = texts.length % num_lines := by
    rw [hinv.1, idxk_getD _ _ 0 hL, Nat.zero_add]
  have hk : texts.length % num_lines < (ring_run num_lines num_chars texts).line_buffers.length := by
    rw [hinv.2.1]; exact Nat.mod_lt _ hL
  have hrow : ((ring_run num_lines num_chars texts).line_buffers.set
      (texts.length % num_lines) (stored_row num_chars text)).getD
        (texts.length % num_lines) [] = stored_row num_chars text := by
    rw [List.getD_eq_getElem _ _ (by rw [List.length_set]; exact hk), List.getElem_set_self]
  rw [add_line_eq num_lines num_chars _ _ text hL hinv, hold]
  simp only
  refine ⟨idxk_last _ _ hL, hk, rfl, ?_, ?_, ?_, hinv.2.1, trivial, trivial, ?_⟩
  · rw [hrow]; exact stored_row_length _ _
  · intro j hj
    rw [List.getD_eq_getElem?_getD, List.getD_eq_getElem?_getD,
      List.getElem?_set_ne (fun e => hj e.symm)]
  · rw [List.length_set]; exact hinv.2.1
  · intro _ i hs hi
    rw [hrow]
    exact stored_row_padding _ _ i hs hi

/-- C18, after the appends "abc" and then "d": the second append writes slot 1 only, which
holds 'd' followed by 59 NUL bytes, and slot 0 still holds "abc". -/
theorem C18_add_line_frame_witness :
    (strlen [100] < num_chars ∧ strlen [100] ≤ 1 ∧ 1 < num_chars
      ∧ (0 : Nat) ≠ (ring_run num_lines num_chars [[97, 98, 99]]).line_index.getD 0 0)
    ∧ ((add_line num_lines num_chars (ring_run num_lines num_chars [[97, 98, 99]])
          [100]).1.line_buffers.getD
        ((ring_run num_lines num_chars [[97, 98, 99]]).line_index.getD 0 0) []).getD 1 1 = 0
    ∧ (add_line num_lines num_chars (ring_run num_lines num_chars [[97, 98, 99]])
          [100]).1.line_buffers.getD 0 []
        = (ring_run num_lines num_chars [[97, 98, 99]]).line_buffers.getD 0 []
    ∧ (add_line num_lines num_chars (ring_run num_lines num_chars [[97, 98, 99]])
          [100]).1.line_buffers.take 2
        = [[97, 98, 99] ++ List.replicate 57 0, [100] ++ List.replicate 59 0] :=
  ⟨by decide,
    (C18_add_line_frame [[97, 98, 99]] [100]).2.2.2.2.2.2.2.2.2 (by decide) 1 (by decide)
      (by decide),
    (C18_add_line_frame [[97, 98, 99]] [100]).2.2.2.2.1 0 (by decide),
    by decide⟩

end Terminal
